import Mathlib

/-!
# Verification of the TeleprompterOnSmartGlasses core

Shallow embedding of the teleprompter's algorithmic core:

* `TranscriptProcessor.wrapText` / `wrapTextPart` (src/src/utils/src/text-wrapping/TranscriptProcessor.ts)
* the stage-direction filter (modelled from the spec; the implementation file
  `src/utils/src/stageDirections.ts` is not part of the snapshot, only its tests)
* `TeleprompterManager` position logic: `advancePosition`, `skipEmptyLines`,
  `processSpeechInput`, `findSpeechMatchPosition` (src/src/index.ts)

Strings are modelled as `List Char`.  JavaScript numbers are modelled as `Int`
(for indices and lengths, which may go negative in the source) and `ℚ` (for the
fractional word-rate arithmetic; IEEE-754 rounding is abstracted away — every
claim settled below is robust to that abstraction, and the one float-sensitive
constant, `Math.floor(min(len) * 0.3)`, provably coincides with the rational
`min(len) * 3 / 10` on the lengths (2..7) at which the code evaluates it).

Loops of the source that are not structurally terminating are modelled with
explicit fuel; a `none` result means the corresponding JavaScript loop does not
terminate (the fuel is chosen large enough for every terminating execution,
which is proved where a claim needs it).
-/

namespace Teleprompter

/-! ## JavaScript character and string primitives -/

/-- The whitespace characters recognised by the source's `\s` / `trim`
(ASCII subset; the scripts involved are ASCII). -/
def isJsSpace (c : Char) : Bool :=
  c = ' ' || c = '\t' || c = '\n' || c = '\r' || c = '\x0b' || c = '\x0c'

/-- `String.prototype.trim`, on char lists: drop whitespace from both ends. -/
def jsTrim (cs : List Char) : List Char :=
  (cs.dropWhile isJsSpace).rdropWhile isJsSpace

/-- ASCII `String.prototype.toLowerCase`. -/
def jsToLower (c : Char) : Char :=
  if 'A' ≤ c ∧ c ≤ 'Z' then Char.ofNat (c.toNat + 32) else c

/-- A `\w` word character: `[A-Za-z0-9_]`. -/
def isWordChar (c : Char) : Bool :=
  ('a' ≤ c && c ≤ 'z') || ('A' ≤ c && c ≤ 'Z') || ('0' ≤ c && c ≤ '9') || c = '_'

/-- Split on whitespace runs and drop empty tokens: the composition
`.split(/\s+/).filter(w => w.length > 0)` used throughout the source. -/
def splitWsAux (cur : List Char) : List Char → List (List Char)
  | [] => if cur = [] then [] else [cur.reverse]
  | c :: rest =>
    if isJsSpace c then
      if cur = [] then splitWsAux [] rest else cur.reverse :: splitWsAux [] rest
    else splitWsAux (c :: cur) rest

def splitWs (cs : List Char) : List (List Char) := splitWsAux [] cs

/-- Split on a single character (JavaScript `split(' ')`, keeping empties). -/
def splitCharAux (sep : Char) (cur : List Char) : List Char → List (List Char)
  | [] => [cur.reverse]
  | c :: rest =>
    if c = sep then cur.reverse :: splitCharAux sep [] rest
    else splitCharAux sep (c :: cur) rest

def splitChar (sep : Char) (cs : List Char) : List (List Char) := splitCharAux sep [] cs

/-- `Array.prototype.join(' ')` / `String.prototype.split(' ')` inverse. -/
def joinSpace : List (List Char) → List Char
  | [] => []
  | [w] => w
  | w :: ws => w ++ ' ' :: joinSpace ws

/-- First index of `needle` as a contiguous sublist of `hay`; `-1` if absent
(JavaScript `String.prototype.indexOf`). -/
def indexOfSubAux (needle : List Char) : List Char → Nat → Int
  | hay, i =>
    if needle.isPrefixOf hay then (i : Int)
    else
      match hay with
      | [] => -1
      | _ :: t => indexOfSubAux needle t (i + 1)

def indexOfSub (needle hay : List Char) : Int := indexOfSubAux needle hay 0

/-- JavaScript `Array.prototype.slice(start, end)` with the sign conventions of
the ECMAScript spec (negative indices count from the end, everything clamped). -/
def jsSlice (l : List (List Char)) (s e : Int) : List (List Char) :=
  let n : Int := l.length
  let s' : Int := if s < 0 then max (n + s) 0 else min s n
  let e' : Int := if e < 0 then max (n + e) 0 else min e n
  (l.take e'.toNat).drop s'.toNat

/-- Element at a (possibly negative or out-of-range) JavaScript array index;
`none` models `undefined`. -/
def lineAtI (l : List (List Char)) (j : Int) : Option (List Char) :=
  if 0 ≤ j ∧ j < (l.length : Int) then l.get? j.toNat else none

/-- The last `n` elements of a list (`slice(-n)` on a buffer). -/
def takeLast (n : Nat) (l : List (List Char)) : List (List Char) :=
  l.drop (l.length - n)

end Teleprompter

namespace TranscriptProcessor

open Teleprompter

/-! ## `TranscriptProcessor.wrapText`

The source first runs `text.replace(/(\r?\n){2,}/g, '<<<INDENT_MARKER>>>')`,
then splits on `/\r?\n/`, and treats lines containing the marker specially.
The marker is modelled as a dedicated token (`PTok.marker`) rather than as the
19-character literal; this is faithful for every input that does not itself
contain the literal string `<<<INDENT_MARKER>>>`. -/

inductive PTok where
  | ch (c : Char)
  | marker
deriving DecidableEq

/-- Greedily consume the maximal run of `(\r?\n)` units at the head of the
text, returning the number of units and the rest.  The regex
`(\r?\n){2,}` is deterministic (no backtracking choice exists), so maximal
munch of units is exactly its matching behaviour. -/
def breakRun : List Char → Nat × List Char
  | [] => (0, [])
  | [c] => if c = '\n' then (1, []) else (0, [c])
  | c :: c2 :: rest =>
    if c = '\n' then
      let p := breakRun (c2 :: rest)
      (p.1 + 1, p.2)
    else if c = '\r' ∧ c2 = '\n' then
      let p := breakRun rest
      (p.1 + 1, p.2)
    else (0, c :: c2 :: rest)

theorem breakRun_length : ∀ cs : List Char, (breakRun cs).2.length + (breakRun cs).1 ≤ cs.length
  | [] => by simp [breakRun]
  | [c] => by by_cases h : c = '\n' <;> simp [breakRun, h]
  | c :: c2 :: rest => by
    by_cases h1 : c = '\n'
    · have ih := breakRun_length (c2 :: rest)
      simp only [breakRun, if_pos h1, List.length_cons] at ih ⊢
      omega
    · by_cases h2 : c = '\r' ∧ c2 = '\n'
      · have ih := breakRun_length rest
        simp only [breakRun, if_neg h1, if_pos h2, List.length_cons] at ih ⊢
        omega
      · simp [breakRun, if_neg h1, if_neg h2]

/-- `text.replace(/(\r?\n){2,}/g, marker)` as a token stream: at each scan
position, if a run of two-or-more break units starts here, replace it by the
marker and resume after the run; otherwise emit the character and resume at
the next position (exactly the global-regex scan; a position inside a
single `\r\n` unit can never start a run of length `≥ 2`).  The fuel is the
length of the remaining text, which every step strictly decreases by at least
one (`breakRun_length`), so the `fuel = 0` branch with nonempty text is
unreachable from `insertMarkers`. -/
def insertMarkersAux : Nat → List Char → List PTok
  | 0, _ => []
  | fuel + 1, cs =>
    match cs with
    | [] => []
    | c :: rest =>
      if 2 ≤ (breakRun (c :: rest)).1 then
        .marker :: insertMarkersAux fuel (breakRun (c :: rest)).2
      else .ch c :: insertMarkersAux fuel rest

def insertMarkers (cs : List Char) : List PTok := insertMarkersAux cs.length cs

/-- Split the token stream on `/\r?\n/`. -/
def splitPLinesAux (cur : List PTok) : List PTok → List (List PTok)
  | [] => [cur.reverse]
  | .marker :: rest => splitPLinesAux (.marker :: cur) rest
  | .ch c :: rest =>
    if c = '\n' then cur.reverse :: splitPLinesAux [] rest
    else if c = '\r' then
      match rest with
      | .ch c2 :: rest2 =>
        if c2 = '\n' then cur.reverse :: splitPLinesAux [] rest2
        else splitPLinesAux (.ch c :: cur) (.ch c2 :: rest2)
      | [] => splitPLinesAux (.ch c :: cur) []
      | .marker :: rest2 => splitPLinesAux (.ch c :: cur) (.marker :: rest2)
    else splitPLinesAux (.ch c :: cur) rest

def splitPLines (ts : List PTok) : List (List PTok) := splitPLinesAux [] ts

/-- `trim` on a token line (the marker is not whitespace). -/
def isTokSpace : PTok → Bool
  | .ch c => isJsSpace c
  | .marker => false

def ptrim (ts : List PTok) : List PTok :=
  (ts.dropWhile isTokSpace).rdropWhile isTokSpace

/-- `line.split('<<<INDENT_MARKER>>>')`. -/
def splitMarkerAux (cur : List Char) : List PTok → List (List Char)
  | [] => [cur.reverse]
  | .marker :: rest => cur.reverse :: splitMarkerAux [] rest
  | .ch c :: rest => splitMarkerAux (c :: cur) rest

def splitMarker (ts : List PTok) : List (List Char) := splitMarkerAux [] ts

/-- Characters of a marker-free token line. -/
def charsOf : List PTok → List Char
  | [] => []
  | .ch c :: rest => c :: charsOf rest
  | .marker :: rest => charsOf rest

/-! ### `wrapTextPart` (TranscriptProcessor.ts lines 228-256)

One iteration of the inner `while` loop, in the overflow case
(`remainingText.length > effectiveLineLength`): find the split index by
scanning down from `effectiveLineLength` for a space (JS `charAt` on a
negative index returns `""`, so the scan never runs when the effective
length is `≤ 0`), reset it to `effectiveLineLength` if it reached `0`, and
split there (`substring` clamps negative indices to `0`). -/

def findSplitIndex (cs : List Char) : Nat → Nat
  | 0 => 0
  | i + 1 => if cs.getD (i + 1) '\x00' = ' ' then i + 1 else findSplitIndex cs i

/-- The value of `splitIndex` after the scan-down loop and the `if
(splitIndex === 0)` reset, as an `Int` (it is negative when
`effectiveLineLength` is; `substring` then clamps it to 0). -/
def wrapStepS (effective : Int) (remaining : List Char) : Int :=
  if effective ≤ 0 then effective
  else if findSplitIndex remaining effective.toNat = 0 then effective
  else (findSplitIndex remaining effective.toNat : Int)

def wrapStep (effective : Int) (remaining : List Char) : List Char × List Char :=
  (jsTrim (remaining.take (wrapStepS effective remaining).toNat),
   jsTrim (remaining.drop (wrapStepS effective remaining).toNat))

/-- The `while (remainingText.length > 0)` loop of `wrapTextPart`, with fuel.
`none` models non-termination of the JavaScript loop: whenever the loop
terminates it runs at most `text.length + 1` iterations (each overflow
iteration strictly shrinks the remaining text when it makes progress at all,
and an iteration that does not shrink it repeats forever). -/
def wrapTextPartAux (effective : Int) (indentPrefix : List Char) :
    Nat → List Char → Bool → Option (List (List Char))
  | 0, remaining, _ =>
    if remaining.length = 0 then some [] else none
  | fuel + 1, remaining, isFirst =>
    if remaining.length = 0 then some []
    else if (remaining.length : Int) ≤ effective then
      some [(if isFirst then indentPrefix else []) ++ remaining]
    else
      let step := wrapStep effective remaining
      let finalChunk := (if isFirst then indentPrefix else []) ++ step.1
      (wrapTextPartAux effective indentPrefix fuel step.2 false).map (finalChunk :: ·)

def wrapTextPart (text : List Char) (maxLineLength : Int) (shouldIndent : Bool) :
    Option (List (List Char)) :=
  let indentPrefix : List Char := if shouldIndent then [' ', ' ', ' ', ' '] else []
  let effective : Int := maxLineLength - indentPrefix.length
  wrapTextPartAux effective indentPrefix (text.length + 1) text true

/-! ### `wrapText` (TranscriptProcessor.ts lines 169-223) -/

/-- The marker branch of `wrapText`: wrap each part, indenting every part but
the first; empty parts are skipped.  (The `if (j < parts.length - 1)` block in
the source only contains comments and an unused local, i.e. it is dead code.) -/
def processParts (maxLineLength : Int) : Nat → List (List Char) → Option (List (List Char))
  | _, [] => some []
  | j, p :: rest => do
    let pt := jsTrim p
    let head ← if pt.length = 0 then some [] else wrapTextPart pt maxLineLength (decide (0 < j))
    let tail ← processParts maxLineLength (j + 1) rest
    pure (head ++ tail)

def processOneLine (maxLineLength : Int) (line : List PTok) : Option (List (List Char)) :=
  let t := ptrim line
  if t.length = 0 then some [[]]
  else if t.any (· = PTok.marker) then processParts maxLineLength 0 (splitMarker t)
  else wrapTextPart (charsOf t) maxLineLength false

def processLines (maxLineLength : Int) : List (List PTok) → Option (List (List Char))
  | [] => some []
  | line :: rest => do
    let head ← processOneLine maxLineLength line
    let tail ← processLines maxLineLength rest
    pure (head ++ tail)

/-- `TranscriptProcessor.wrapText` after its argument check.  `none` models a
non-terminating call. -/
def wrapText (text : List Char) (maxLineLength : Int) : Option (List (List Char)) :=
  processLines maxLineLength (splitPLines (insertMarkers text))

/-- JavaScript numbers as far as the `wrapText` validation is concerned:
`NaN` or an integral value.  (The source also admits non-integral and infinite
widths; the checks `typeof maxLineLength !== "number" || isNaN(maxLineLength)`
reject exactly non-numbers and `NaN`, so every numeric non-`NaN` width passes.) -/
inductive JSNumber where
  | nan
  | int (n : Int)
deriving DecidableEq

/-- `wrapText` including its argument validation (lines 170-172): it throws
if and only if the width is not a number or is `NaN`. -/
def wrapTextChecked (text : List Char) (m : JSNumber) :
    Except (List Char) (Option (List (List Char))) :=
  match m with
  | .nan => .error ("wrapText: maxLineLength must be a number".toList)
  | .int n => .ok (wrapText text n)

def isOk {ε α : Type} : Except ε α → Bool
  | .ok _ => true
  | .error _ => false

/-- `countWords` (line 309-311). -/
def countWords (cs : List Char) : Nat := (splitWs cs).length

/-- `estimateWordsPerLine` (lines 314-324); `none` if wrapping diverges. -/
def estimateWordsPerLine (text : List Char) (maxCharsPerLine : Int) : Option ℚ := do
  let lines ← wrapText text maxCharsPerLine
  if lines.length = 0 then pure 0
  else pure ((lines.map countWords).sum / (lines.length : ℚ))

end TranscriptProcessor

namespace StageDirections

open Teleprompter

/-! ## Stage-direction filter

Modelled from the spec: the implementation file `src/utils/src/stageDirections.ts`
is not part of the repository snapshot (only its test suites are), so
`getDelimiterPair`, `findRanges`, `stripStageDirections` and
`transformStageDirectionsForDisplay` below follow §4.2 of the specification:
a single left-to-right scan tracks nesting depth, an `open` at depth 0 pushes
a span start, a `close` that returns the depth to 0 closes the span,
unclosed spans extend to the text length, a lone `close` is ordinary text;
`strip` concatenates the segments between spans verbatim; `transform` is the
identity for Normal, equals `strip` for Hidden, and for Dimmed rewrites span
delimiters to parentheses (a no-op when the pair already is parentheses),
synthesizing a trailing `)` when a span is unclosed and the text does not end
in `close`.  Every definition agrees with the repository's test suites on all
of their cases. -/

inductive DelimiterType where
  | none | square | round | curly
deriving DecidableEq

inductive DisplayMode where
  | normal | dimmed | hidden
deriving DecidableEq

/-- Modelled from the spec: delimiter kind to literal character pair. -/
def getDelimiterPair : DelimiterType → Option (Char × Char)
  | .none => Option.none
  | .square => some ('[', ']')
  | .round => some ('(', ')')
  | .curly => some ('{', '}')

/-- Modelled from the spec: the depth-tracking scan.  Arguments: remaining
text, current index, current depth, start index of the pending span. -/
def findRangesAux (o c : Char) : List Char → Nat → Nat → Nat → List (Nat × Nat)
  | [], i, depth, start => if 0 < depth then [(start, i)] else []
  | x :: rest, i, depth, start =>
    if x = o then
      if depth = 0 then findRangesAux o c rest (i + 1) 1 i
      else findRangesAux o c rest (i + 1) (depth + 1) start
    else if x = c then
      if depth = 0 then findRangesAux o c rest (i + 1) 0 start
      else if depth = 1 then (start, i + 1) :: findRangesAux o c rest (i + 1) 0 start
      else findRangesAux o c rest (i + 1) (depth - 1) start
    else findRangesAux o c rest (i + 1) depth start

/-- Modelled from the spec: `findRanges(text, open, close)` — ordered,
non-overlapping `[start, end)` spans. -/
def findRanges (o c : Char) (text : List Char) : List (Nat × Nat) :=
  findRangesAux o c text 0 0 0

/-- The nesting depth left at the end of the scan (0 iff every span closed). -/
def finalDepthAux (o c : Char) : List Char → Nat → Nat
  | [], depth => depth
  | x :: rest, depth =>
    finalDepthAux o c rest (if x = o then depth + 1 else if x = c then depth - 1 else depth)

def finalDepth (o c : Char) (text : List Char) : Nat := finalDepthAux o c text 0

def inSpan (i : Nat) (spans : List (Nat × Nat)) : Bool :=
  spans.any fun p => p.1 ≤ i ∧ i < p.2

/-- Modelled from the spec: `strip` removes all found spans, concatenating the
segments between them verbatim. -/
def stripStageDirections (text : List Char) (d : DelimiterType) : List Char :=
  match getDelimiterPair d with
  | Option.none => text
  | some (o, c) =>
    let spans := findRanges o c text
    (List.range text.length).filterMap fun i =>
      if inSpan i spans then Option.none else text.get? i

/-- Modelled from the spec: `transform(text, delimiter, mode)`. -/
def transformStageDirectionsForDisplay (text : List Char) (d : DelimiterType)
    (mode : DisplayMode) : List Char :=
  match mode with
  | .normal => text
  | .hidden => stripStageDirections text d
  | .dimmed =>
    match getDelimiterPair d with
    | Option.none => text
    | some (o, c) =>
      if o = '(' then text
      else
        let spans := findRanges o c text
        let body := (List.range text.length).filterMap fun i =>
          if spans.any (fun p => p.1 = i) then some '('
          else if spans.any (fun p => p.2 = i + 1) ∧ text.get? i = some c then some ')'
          else text.get? i
        body ++ (if spans.any (fun p => p.2 = text.length) ∧ text.getLast? ≠ some c
                 then [')'] else [])

end StageDirections

namespace TeleprompterManager

open Teleprompter TranscriptProcessor StageDirections

/-! ## `TeleprompterManager` (src/src/index.ts)

Positions are `Int` because the source lets `currentLinePosition` become
negative (`maxPosition = this.lines.length - this.numberOfLines` is not
clamped at 0 in `advancePosition`/`skipEmptyLines`). -/

/-- The speech normalization `toLowerCase().replace(/[^\w\s'-]/g, ' ')
.split(/\s+/).filter(w => w.length > 0)` (index.ts lines 459-462, 734-737). -/
def keepChar (c : Char) : Bool :=
  isWordChar c || isJsSpace c || c = '\'' || c = '-'

def normalizeWords (cs : List Char) : List (List Char) :=
  splitWs ((cs.map jsToLower).map fun c => if keepChar c then c else ' ')

theorem length_dropWhile_le (p : Char → Bool) :
    ∀ l : List Char, (l.dropWhile p).length ≤ l.length
  | [] => Nat.le_refl _
  | c :: rest => by
    rw [List.dropWhile_cons]
    split
    · exact Nat.le_trans (length_dropWhile_le p rest) (by simp)
    · simp

/-- `replace(/\s+/g, ' ')`.  The fuel is the length of the remaining text,
which every step strictly decreases (`length_dropWhile_le`), so the `fuel = 0`
branch with nonempty text is unreachable from `collapseWs`. -/
def collapseWsAux : Nat → List Char → List Char
  | 0, _ => []
  | fuel + 1, cs =>
    match cs with
    | [] => []
    | c :: rest =>
      if isJsSpace c then ' ' :: collapseWsAux fuel (rest.dropWhile isJsSpace)
      else c :: collapseWsAux fuel rest

def collapseWs (cs : List Char) : List Char := collapseWsAux cs.length cs

/-- `Array.prototype.slice(-n)`: the last `n` elements, or the whole array
when `n = 0` (`slice(-0)` is `slice(0)`). -/
def takeLastJS (n : Nat) (l : List (List Char)) : List (List Char) :=
  if n = 0 then l else l.drop (l.length - n)

/-- Levenshtein distance, by the standard row recurrence.  The source's
`calculateLevenshteinDistance` (index.ts lines 674-716) adds a two-row memory
layout and an early exit that returns `maxDistance + 1` as soon as the result
is guaranteed to exceed `maxDistance`; it is only ever consumed through the
test `distance ≤ maxDistance`, for which the early exit is semantically
transparent, so the plain distance is the faithful denotation. -/
def levNextRow (c : Char) : List Char → Nat → List Nat → List Nat
  | [], _, _ => []
  | tc :: ts, left, diag :: aboveRest =>
    let above := aboveRest.headD 0
    let cost := if c = tc then 0 else 1
    let v := min (min (left + 1) (above + 1)) (diag + cost)
    v :: levNextRow c ts v aboveRest
  | _ :: _, _, [] => []

def levRowStep (t : List Char) (prev : List Nat) (c : Char) : List Nat :=
  (prev.headD 0 + 1) :: levNextRow c t (prev.headD 0 + 1) prev

def levenshtein (s t : List Char) : Nat :=
  (s.foldl (levRowStep t) (List.range (t.length + 1))).getLastD 0

/-- `wordsAreSimilar` (index.ts lines 644-665).  `Math.floor(min * 0.3)`
coincides with `min * 3 / 10` in `Nat` division for every length the branch
can see (both words have length in 2..7 here). -/
def wordsAreSimilar (w1 w2 : List Char) : Bool :=
  if w1 = w2 then true
  else if w1.length < 2 || w2.length < 2 then w1 = w2
  else if w2.isPrefixOf w1 || w1.isPrefixOf w2 then true
  else if indexOfSub w2 w1 ≠ -1 || indexOfSub w1 w2 ≠ -1 then true
  else if w1.length ≤ 7 && w2.length ≤ 7 then
    let maxDistance := max 1 (min w1.length w2.length * 3 / 10)
    levenshtein w1 w2 ≤ maxDistance
  else false

/-- The `TeleprompterManager` fields involved in position tracking and speech
matching.  `numberOfLines` is the visible-line count; `lineOffset` is the
"lead offset" (always 0 in the source); rates are rationals. -/
structure TPState where
  lines : List (List Char)
  linesForSpeechMatching : List (List Char)
  numberOfLines : Nat
  currentLinePosition : Int
  linePositionAccumulator : ℚ
  avgWordsPerLine : ℚ
  wordsPerInterval : ℚ
  speechBuffer : List (List Char)
  speechScrollEnabled : Bool
  minWordsForMatch : Nat
  lineOffset : Int
  lastSpeechPosition : Int
deriving DecidableEq

/-- Does any line of the visible window at `position` have content?
(the inner `for` loop of `skipEmptyLines`, index.ts lines 853-859; an index
out of range reads `undefined`, which is falsy). -/
def windowHasContent (lines : List (List Char)) (n : Nat) (position : Int) : Bool :=
  (List.range n).any fun i =>
    match lineAtI lines (position + i) with
    | some l => decide (0 < (jsTrim l).length)
    | Option.none => false

/-- The `while` loop of `skipEmptyLines` (index.ts lines 849-866).  The fuel
`(maxPosition + 1 - position).toNat` counts the loop iterations exactly: it is
`0` precisely when `position > maxPosition`, i.e. when the loop guard fails. -/
def skipGoAux (lines : List (List Char)) (n : Nat) (maxPosition : Int) :
    Nat → Int → Int
  | 0, position => position
  | fuel + 1, position =>
    if position ≤ maxPosition then
      if windowHasContent lines n position then position
      else skipGoAux lines n maxPosition fuel (position + 1)
    else position

def skipGo (lines : List (List Char)) (n : Nat) (maxPosition : Int) (position : Int) : Int :=
  skipGoAux lines n maxPosition (maxPosition + 1 - position).toNat position

/-- `skipEmptyLines` (index.ts lines 844-869).  Note the unclamped
`maxPosition = lines.length - numberOfLines`. -/
def skipEmptyLines (st : TPState) (startPosition : Int) : Int :=
  let maxPosition : Int := (st.lines.length : Int) - st.numberOfLines
  min (skipGo st.lines st.numberOfLines maxPosition startPosition) maxPosition

/-- `advancePosition` (index.ts lines 311-340). -/
def advancePosition (st : TPState) : TPState :=
  if st.lines.length = 0 then st
  else
    let linesPerInterval : ℚ := st.wordsPerInterval / max 1 st.avgWordsPerLine
    let acc := st.linePositionAccumulator + linesPerInterval
    let st1 :=
      if 1 ≤ acc then
        let linesToAdvance : Int := ⌊acc⌋
        { st with
          linePositionAccumulator := acc - linesToAdvance,
          currentLinePosition := skipEmptyLines st (st.currentLinePosition + linesToAdvance) }
      else { st with linePositionAccumulator := acc }
    let maxPosition : Int := (st.lines.length : Int) - st.numberOfLines
    if maxPosition ≤ st1.currentLinePosition then
      { st1 with currentLinePosition := maxPosition }
    else st1

/-- `resetPosition` (index.ts lines 295-308), restricted to the embedded
fields. -/
def resetPosition (st : TPState) : TPState :=
  { st with
    currentLinePosition := 0,
    linePositionAccumulator := 0,
    speechBuffer := [],
    lastSpeechPosition := -1 }

/-! ### `findSpeechMatchPosition` (index.ts lines 528-586) -/

def linesToSearch (st : TPState) : List (List Char) :=
  if 0 < st.linesForSpeechMatching.length then st.linesForSpeechMatching else st.lines

def searchStartLine (st : TPState) : Int := st.currentLinePosition

def searchEndLine (st : TPState) : Int :=
  min ((linesToSearch st).length : Int) (st.currentLinePosition + st.numberOfLines + 1)

def searchLines (st : TPState) : List (List Char) :=
  jsSlice (linesToSearch st) (searchStartLine st) (searchEndLine st)

/-- `estimateLineFromWordPosition`'s word-counting walk (index.ts 732-745).
The fuel `(linesToUse.length - lineIdx).toNat` counts the remaining loop
iterations exactly: it is `0` precisely when `lineIdx ≥ linesToUse.length`,
i.e. when the loop guard fails. -/
def estimateGoAux (linesToUse : List (List Char)) (wordPosition : Nat) :
    Nat → Int → Nat → Option Int
  | 0, _, _ => Option.none
  | fuel + 1, lineIdx, wordCount =>
    if lineIdx < (linesToUse.length : Int) then
      let lineWords :=
        match lineAtI linesToUse lineIdx with
        | some l => (normalizeWords l).length
        | Option.none => 0
      if wordPosition < wordCount + lineWords then some lineIdx
      else estimateGoAux linesToUse wordPosition fuel (lineIdx + 1) (wordCount + lineWords)
    else Option.none

def estimateGo (linesToUse : List (List Char)) (wordPosition : Nat) (lineIdx : Int)
    (wordCount : Nat) : Option Int :=
  estimateGoAux linesToUse wordPosition ((linesToUse.length : Int) - lineIdx).toNat
    lineIdx wordCount

/-- `estimateLineFromWordPosition` (index.ts lines 722-752). -/
def estimateLineFromWordPosition (st : TPState) (wordPosition : Nat) (searchStart : Int) : Int :=
  if st.avgWordsPerLine ≤ 0 then searchStart
  else
    match estimateGo (linesToSearch st) wordPosition searchStart 0 with
    | some idx => idx
    | Option.none =>
      let estimatedLinesFromStart : Int := ⌊(wordPosition : ℚ) / st.avgWordsPerLine⌋
      max 0 (searchStart + estimatedLinesFromStart)

/-- `findExactMatch` (index.ts lines 591-603). -/
def findExactMatch (st : TPState) (speechPhrase : List Char)
    (searchWords : List (List Char)) (searchStart : Int) : Int :=
  let searchText := joinSpace searchWords
  let matchIndex := indexOfSub speechPhrase searchText
  if matchIndex ≠ -1 then
    let wordsBeforeMatch := (splitChar ' ' (searchText.take matchIndex.toNat)).length - 1
    estimateLineFromWordPosition st wordsBeforeMatch searchStart
  else -1

/-- `findFuzzyMatch` (index.ts lines 608-639). -/
def findFuzzyMatch (st : TPState) (speechPhrase : List Char)
    (searchWords : List (List Char)) (searchStart : Int) : Int :=
  let speechWords := splitChar ' ' speechPhrase
  let minMatchWords := max st.minWordsForMatch speechWords.length
  let windowSizes :=
    [speechWords.length, speechWords.length + 1, speechWords.length - 1].filter (0 < ·)
  let hit := windowSizes.findSome? fun windowSize =>
    if windowSize ≤ searchWords.length then
      (List.range (searchWords.length - windowSize + 1)).findSome? fun i =>
        let windowWords := (searchWords.drop i).take windowSize
        let matchCount :=
          (speechWords.filter fun sw => windowWords.any fun ww => wordsAreSimilar sw ww).length
        if minMatchWords ≤ matchCount then
          some (estimateLineFromWordPosition st i searchStart)
        else Option.none
    else Option.none
  hit.getD (-1)

/-- One iteration of the phrase-length loop (index.ts lines 566-583). -/
def attemptPhrase (st : TPState) (searchWords : List (List Char)) (searchStart : Int)
    (bufferLen : Nat) : Int :=
  let speechPhrase := joinSpace (takeLastJS bufferLen st.speechBuffer)
  let exactMatch := findExactMatch st speechPhrase searchWords searchStart
  if exactMatch ≠ -1 then exactMatch
  else findFuzzyMatch st speechPhrase searchWords searchStart

/-- The descending phrase-length loop
`for (let bufferLen = min(buffer.length, 5); bufferLen >= minWordsForMatch; bufferLen--)`. -/
def tryPhraseLengths (st : TPState) (searchWords : List (List Char)) (searchStart : Int) :
    Nat → Int
  | 0 =>
    if st.minWordsForMatch = 0 then attemptPhrase st searchWords searchStart 0 else -1
  | n + 1 =>
    if n + 1 < st.minWordsForMatch then -1
    else
      let r := attemptPhrase st searchWords searchStart (n + 1)
      if r ≠ -1 then r else tryPhraseLengths st searchWords searchStart n

/-- `findSpeechMatchPosition` (index.ts lines 528-586): `-1` means no match. -/
def findSpeechMatchPosition (st : TPState) : Int :=
  let lts := linesToSearch st
  if st.speechBuffer.length < st.minWordsForMatch ∨ lts.length = 0 then -1
  else
    let nonEmptyLines := (searchLines st).filter fun l => 0 < (jsTrim l).length
    let searchText :=
      jsTrim (collapseWs (((joinSpace nonEmptyLines).map jsToLower).map fun c =>
        if keepChar c then c else ' '))
    if searchText = [] then -1
    else
      let searchWords := (splitChar ' ' searchText).filter (0 < ·.length)
      tryPhraseLengths st searchWords (searchStartLine st) (min st.speechBuffer.length 5)

/-! ### `processSpeechInput` (index.ts lines 453-521) -/

/-- The speech-buffer update (index.ts lines 469-475), given that the entry
guards passed. -/
def updateSpeechBuffer (st : TPState) (speechText : List Char) (isFinal : Bool) : TPState :=
  let words := normalizeWords speechText
  let buf :=
    if isFinal then takeLastJS 20 (st.speechBuffer ++ words)
    else takeLastJS 10 (st.speechBuffer ++ words)
  { st with speechBuffer := buf }

/-- The forward-advance block (index.ts lines 491-514), taken when a match
position strictly ahead of the current position was found. -/
def speechAdvance (st : TPState) (matchPosition : Int) : TPState :=
  let maxAdvance := min matchPosition (st.currentLinePosition + 10)
  let biasedPosition := max maxAdvance st.currentLinePosition
  let targetPosition := max st.currentLinePosition (biasedPosition - st.lineOffset)
  let finalPosition := skipEmptyLines st targetPosition
  let previousPosition := st.currentLinePosition
  let newPos :=
    max st.currentLinePosition
      (min finalPosition ((st.lines.length : Int) - st.numberOfLines))
  { st with
    currentLinePosition := newPos,
    linePositionAccumulator :=
      if newPos ≠ previousPosition then 0 else st.linePositionAccumulator,
    lastSpeechPosition := matchPosition }

/-- `processSpeechInput` (index.ts lines 453-521). -/
def processSpeechInput (st : TPState) (speechText : List Char) (isFinal : Bool) : TPState :=
  if ¬st.speechScrollEnabled ∨ jsTrim speechText = [] then st
  else if normalizeWords speechText = [] then st
  else
    let st1 := updateSpeechBuffer st speechText isFinal
    if st1.speechBuffer.length < st1.minWordsForMatch then st1
    else
      let matchPosition := findSpeechMatchPosition st1
      if matchPosition ≠ -1 ∧ st1.currentLinePosition < matchPosition then
        speechAdvance st1 matchPosition
      else st1

/-- Construct the manager state the constructor (index.ts lines 88-109) and
`processText` (lines 111-152) produce for a given text, line width and scroll
speed, with the constructor defaults: 4 visible lines, 500 ms interval,
delimiter `none`, display `dimmed`, speech scrolling on, `minWordsForMatch`
3, `lineOffset` 0.  `none` if wrapping diverges. -/
def mkState (text : List Char) (lineWidth : Int) (scrollSpeed : ℚ) : Option TPState := do
  let delimiter := DelimiterType.none
  let textForDisplay := transformStageDirectionsForDisplay text delimiter DisplayMode.dimmed
  let lines ← wrapText textForDisplay lineWidth
  let textForSpeechMatching := stripStageDirections text delimiter
  let linesForSpeechMatching ← wrapText textForSpeechMatching lineWidth
  let avg0 ← estimateWordsPerLine textForSpeechMatching lineWidth
  let avgWordsPerLine := if avg0 ≤ 0 then (5 : ℚ) else avg0
  let scrollInterval : ℚ := 500
  let wordsPerInterval := (scrollSpeed / 60) * (scrollInterval / 1000)
  pure
    { lines := lines
      linesForSpeechMatching := linesForSpeechMatching
      numberOfLines := 4
      currentLinePosition := 0
      linePositionAccumulator := 0
      avgWordsPerLine := avgWordsPerLine
      wordsPerInterval := wordsPerInterval
      speechBuffer := []
      speechScrollEnabled := true
      minWordsForMatch := 3
      lineOffset := 0
      lastSpeechPosition := -1 }

/-- `SPEECH_LOOKAHEAD_LINES` (index.ts line 47): configured but never added to
the search window. -/
def SPEECH_LOOKAHEAD_LINES : Nat := 4

def defaultState : TPState :=
  { lines := []
    linesForSpeechMatching := []
    numberOfLines := 0
    currentLinePosition := 0
    linePositionAccumulator := 0
    avgWordsPerLine := 0
    wordsPerInterval := 0
    speechBuffer := []
    speechScrollEnabled := false
    minWordsForMatch := 0
    lineOffset := 0
    lastSpeechPosition := 0 }

/-- The manager state freshly constructed on the four-word script
`"hello my good world"` at width 38 and 120 wpm (see `mkState_hello`). -/
def stHello : TPState :=
  { lines := ["hello my good world".toList]
    linesForSpeechMatching := ["hello my good world".toList]
    numberOfLines := 4
    currentLinePosition := 0
    linePositionAccumulator := 0
    avgWordsPerLine := 4
    wordsPerInterval := 1
    speechBuffer := []
    speechScrollEnabled := true
    minWordsForMatch := 3
    lineOffset := 0
    lastSpeechPosition := -1 }

/-- The manager state freshly constructed on a fourteen-word script that
wraps to seven lines at width 12 (see `mkState_greek`). -/
def stGreek : TPState :=
  { lines := ["alpha beta".toList, "gamma delta".toList, "epsilon zeta".toList,
              "eta theta".toList, "iota kappa".toList, "lambda mu nu".toList, "xi".toList]
    linesForSpeechMatching := ["alpha beta".toList, "gamma delta".toList,
              "epsilon zeta".toList, "eta theta".toList, "iota kappa".toList,
              "lambda mu nu".toList, "xi".toList]
    numberOfLines := 4
    currentLinePosition := 0
    linePositionAccumulator := 0
    avgWordsPerLine := 2
    wordsPerInterval := 1
    speechBuffer := []
    speechScrollEnabled := true
    minWordsForMatch := 3
    lineOffset := 0
    lastSpeechPosition := -1 }

/-- The manager state freshly constructed on the script `"hi"`, which wraps
to a single line — fewer lines than the default four visible lines
(see `mkState_hi`). -/
def stShort : TPState :=
  { lines := ["hi".toList]
    linesForSpeechMatching := ["hi".toList]
    numberOfLines := 4
    currentLinePosition := 0
    linePositionAccumulator := 0
    avgWordsPerLine := 1
    wordsPerInterval := 1
    speechBuffer := []
    speechScrollEnabled := true
    minWordsForMatch := 3
    lineOffset := 0
    lastSpeechPosition := -1 }

/-- The manager state freshly constructed on the script `"a\n \nb"`, which
wraps to the three lines `["a", "", "b"]` and hence has average words-per-line
2/3, strictly between 0 and 1 (see `mkState_sparse`). -/
def stSparse : TPState :=
  { lines := [['a'], [], ['b']]
    linesForSpeechMatching := [['a'], [], ['b']]
    numberOfLines := 4
    currentLinePosition := 0
    linePositionAccumulator := 0
    avgWordsPerLine := 2 / 3
    wordsPerInterval := 1
    speechBuffer := []
    speechScrollEnabled := true
    minWordsForMatch := 3
    lineOffset := 0
    lastSpeechPosition := -1 }

end TeleprompterManager

/-! ## Theorems -/

open Teleprompter TranscriptProcessor StageDirections TeleprompterManager

/-- Unclosed spans extend to end-of-text: if the scan's depth never returns to
0 (so `finalDepth` is positive), `findRanges` reports a span whose end is the
text length. -/
theorem findRangesAux_unclosed (o c : Char) :
    ∀ (cs : List Char) (i depth start : Nat),
      0 < finalDepthAux o c cs depth →
      ∃ s, (s, i + cs.length) ∈ findRangesAux o c cs i depth start
  | [], i, depth, start => by
    intro h
    simp only [finalDepthAux] at h
    exact ⟨start, by simp [findRangesAux, h]⟩
  | x :: rest, i, depth, start => by
    intro h
    simp only [finalDepthAux] at h
    simp only [findRangesAux, List.length_cons]
    rw [show i + (rest.length + 1) = (i + 1) + rest.length by omega]
    by_cases ho : x = o
    · rw [if_pos ho] at h ⊢
      by_cases hd : depth = 0
      · rw [if_pos hd]
        rw [hd] at h
        exact findRangesAux_unclosed o c rest (i + 1) 1 i (by simpa using h)
      · rw [if_neg hd]
        exact findRangesAux_unclosed o c rest (i + 1) (depth + 1) start h
    · rw [if_neg ho] at h ⊢
      by_cases hc : x = c
      · rw [if_pos hc] at h ⊢
        by_cases hd : depth = 0
        · rw [if_pos hd]
          rw [hd] at h
          exact findRangesAux_unclosed o c rest (i + 1) 0 start (by simpa using h)
        · rw [if_neg hd]
          by_cases hd1 : depth = 1
          · rw [if_pos hd1]
            rw [hd1] at h
            obtain ⟨s, hs⟩ := findRangesAux_unclosed o c rest (i + 1) 0 start (by simpa using h)
            exact ⟨s, List.mem_cons_of_mem _ hs⟩
          · rw [if_neg hd1]
            exact findRangesAux_unclosed o c rest (i + 1) (depth - 1) start h
      · rw [if_neg hc] at h ⊢
        exact findRangesAux_unclosed o c rest (i + 1) depth start h

/-- `mkState` reaches `stHello`. -/
theorem mkState_hello : mkState "hello my good world".toList 38 120 = some stHello := by
  have h1 : wrapText "hello my good world".toList 38 = some ["hello my good world".toList] := by
    decide
  have h2 : stripStageDirections "hello my good world".toList DelimiterType.none =
      "hello my good world".toList := by decide
  have h3 : transformStageDirectionsForDisplay "hello my good world".toList
      DelimiterType.none DisplayMode.dimmed = "hello my good world".toList := by decide
  simp only [mkState, h2, h3, h1, estimateWordsPerLine, Option.bind_eq_bind, Option.some_bind]
  rw [show ((["hello my good world".toList]).map countWords).sum = 4 from by decide]
  norm_num [stHello]

/-- `mkState` reaches `stGreek`. -/
theorem mkState_greek :
    mkState "alpha beta gamma delta epsilon zeta eta theta iota kappa lambda mu nu xi".toList
      12 120 = some stGreek := by
  have h1 : wrapText
      "alpha beta gamma delta epsilon zeta eta theta iota kappa lambda mu nu xi".toList 12 =
      some ["alpha beta".toList, "gamma delta".toList, "epsilon zeta".toList,
            "eta theta".toList, "iota kappa".toList, "lambda mu nu".toList, "xi".toList] := by
    decide
  have h2 : stripStageDirections
      "alpha beta gamma delta epsilon zeta eta theta iota kappa lambda mu nu xi".toList
      DelimiterType.none =
      "alpha beta gamma delta epsilon zeta eta theta iota kappa lambda mu nu xi".toList := by
    decide
  have h3 : transformStageDirectionsForDisplay
      "alpha beta gamma delta epsilon zeta eta theta iota kappa lambda mu nu xi".toList
      DelimiterType.none DisplayMode.dimmed =
      "alpha beta gamma delta epsilon zeta eta theta iota kappa lambda mu nu xi".toList := by
    decide
  simp only [mkState, h2, h3, h1, estimateWordsPerLine, Option.bind_eq_bind, Option.some_bind]
  rw [show ((["alpha beta".toList, "gamma delta".toList, "epsilon zeta".toList,
      "eta theta".toList, "iota kappa".toList, "lambda mu nu".toList,
      "xi".toList]).map countWords).sum = 14 from by decide]
  norm_num [stGreek]

/-- `mkState` reaches `stShort`. -/
theorem mkState_hi : mkState "hi".toList 38 120 = some stShort := by
  have h1 : wrapText "hi".toList 38 = some ["hi".toList] := by decide
  have h2 : stripStageDirections "hi".toList DelimiterType.none = "hi".toList := by decide
  have h3 : transformStageDirectionsForDisplay "hi".toList DelimiterType.none
      DisplayMode.dimmed = "hi".toList := by decide
  simp only [mkState, h2, h3, h1, estimateWordsPerLine, Option.bind_eq_bind, Option.some_bind]
  rw [show ((["hi".toList]).map countWords).sum = 1 from by decide]
  norm_num [stShort]

/-- `mkState` reaches `stSparse`. -/
theorem mkState_sparse : mkState "a\n \nb".toList 38 120 = some stSparse := by
  have h1 : wrapText "a\n \nb".toList 38 = some [['a'], [], ['b']] := by decide
  have h2 : stripStageDirections "a\n \nb".toList DelimiterType.none = "a\n \nb".toList := by
    decide
  have h3 : transformStageDirectionsForDisplay "a\n \nb".toList DelimiterType.none
      DisplayMode.dimmed = "a\n \nb".toList := by decide
  simp only [mkState, h2, h3, h1, estimateWordsPerLine, Option.bind_eq_bind, Option.some_bind]
  rw [show (([['a'], [], ['b']] : List (List Char)).map countWords).sum = 2 from by decide]
  norm_num [stSparse]

/-- `skipEmptyLines` never exceeds `lines.length - numberOfLines`. -/
theorem skipEmptyLines_le (st : TPState) (p : Int) :
    skipEmptyLines st p ≤ (st.lines.length : Int) - st.numberOfLines :=
  min_le_right _ _

/-- What one `advancePosition` tick does: add `wordsPerInterval / max 1 avg` to
the accumulator; if the result reaches 1, advance by its integer part, carry
the remainder, skip blank display windows, and cap at
`lines.length - numberOfLines`; otherwise only cap. -/
theorem advancePosition_spec (st : TPState) (hne : st.lines ≠ []) :
    (advancePosition st).linePositionAccumulator =
      (if 1 ≤ st.linePositionAccumulator + st.wordsPerInterval / max 1 st.avgWordsPerLine then
        st.linePositionAccumulator + st.wordsPerInterval / max 1 st.avgWordsPerLine -
          ⌊st.linePositionAccumulator + st.wordsPerInterval / max 1 st.avgWordsPerLine⌋
      else st.linePositionAccumulator + st.wordsPerInterval / max 1 st.avgWordsPerLine) ∧
    (advancePosition st).currentLinePosition =
      (if 1 ≤ st.linePositionAccumulator + st.wordsPerInterval / max 1 st.avgWordsPerLine then
        skipEmptyLines st (st.currentLinePosition +
          ⌊st.linePositionAccumulator + st.wordsPerInterval / max 1 st.avgWordsPerLine⌋)
      else min st.currentLinePosition ((st.lines.length : Int) - st.numberOfLines)) := by
  have hlen : st.lines.length ≠ 0 := by
    intro h
    exact hne (List.length_eq_zero.mp h)
  simp only [advancePosition, if_neg hlen]
  set acc := st.linePositionAccumulator + st.wordsPerInterval / max 1 st.avgWordsPerLine with hacc
  by_cases h1 : 1 ≤ acc
  · simp only [if_pos h1]
    have hb : skipEmptyLines st (st.currentLinePosition + ⌊acc⌋) ≤
        (st.lines.length : Int) - st.numberOfLines := skipEmptyLines_le st _
    constructor
    · split
      · rfl
      · rfl
    · split
      · next hcap =>
        dsimp only at hcap ⊢
        omega
      · rfl
  · simp only [if_neg h1]
    constructor
    · split
      · rfl
      · rfl
    · split
      · next hcap =>
        dsimp only at hcap ⊢
        omega
      · next hcap =>
        dsimp only at hcap ⊢
        omega

section TrimLemmas

variable {α : Type} (p : α → Bool)

/-- The head of a two-sided trim satisfies the predicate negatively. -/
theorem trim_head?_not (l : List α) (a : α)
    (h : ((l.dropWhile p).rdropWhile p).head? = some a) : p a = false := by
  have hne : (l.dropWhile p).rdropWhile p ≠ [] := by
    intro h0
    rw [h0] at h
    exact Option.noConfusion h
  obtain ⟨t, ht⟩ := List.rdropWhile_prefix p (l.dropWhile p)
  have hXh : (l.dropWhile p).head? = some a := by
    rw [← ht]
    cases h2 : (l.dropWhile p).rdropWhile p with
    | nil => exact absurd h2 hne
    | cons b s =>
      rw [h2] at h
      simp only [List.head?_cons, Option.some.injEq] at h
      simp [h]
  have hXne : l.dropWhile p ≠ [] := by
    intro h0
    rw [h0] at hXh
    exact Option.noConfusion hXh
  have hd := List.head_dropWhile_not p l hXne
  have h3 : (l.dropWhile p).head hXne = a := by
    have h4 := List.head?_eq_head hXne
    rw [hXh] at h4
    exact (Option.some.injEq _ _).mp h4.symm
  rw [h3] at hd
  simpa using hd

/-- Trimming is idempotent. -/
theorem trim_dropWhile_eq_self (l : List α) :
    ((l.dropWhile p).rdropWhile p).dropWhile p = (l.dropWhile p).rdropWhile p := by
  cases h : (l.dropWhile p).rdropWhile p with
  | nil => simp
  | cons a t =>
    have ha : p a = false := trim_head?_not p l a (by rw [h]; rfl)
    simp [List.dropWhile_cons, ha]

theorem trim_idem (l : List α) :
    ((((l.dropWhile p).rdropWhile p).dropWhile p).rdropWhile p) =
      (l.dropWhile p).rdropWhile p := by
  rw [trim_dropWhile_eq_self]
  exact List.rdropWhile_idempotent p _

theorem trim_length_le (l : List α) : ((l.dropWhile p).rdropWhile p).length ≤ l.length :=
  le_trans ((List.rdropWhile_prefix p _).sublist.length_le)
    ((List.dropWhile_suffix p).sublist.length_le)

/-- Trimming a list whose ends do not satisfy the predicate is the identity. -/
theorem trim_eq_self (l : List α)
    (hhead : ∀ a, l.head? = some a → p a = false)
    (hlast : ∀ a, l.getLast? = some a → p a = false) :
    (l.dropWhile p).rdropWhile p = l := by
  have h1 : l.dropWhile p = l := by
    cases l with
    | nil => rfl
    | cons a t =>
      have := hhead a rfl
      simp [List.dropWhile_cons, this]
  rw [h1, List.rdropWhile_eq_self_iff]
  intro hl
  have := hlast (l.getLast hl) (List.getLast?_eq_getLast l hl ▸ rfl)
  simp [this]

/-- Trimming a list of elements that all fail the predicate is the identity. -/
theorem trim_eq_self_of_all (l : List α) (h : ∀ a ∈ l, p a = false) :
    (l.dropWhile p).rdropWhile p = l := by
  refine trim_eq_self p l (fun a ha => ?_) (fun a ha => ?_)
  · exact h a (by cases l with
      | nil => exact Option.noConfusion ha
      | cons b t =>
        simp only [List.head?_cons, Option.some.injEq] at ha
        simp [ha])
  · have : a ∈ l := by
      cases hl : l with
      | nil => rw [hl] at ha; exact Option.noConfusion ha
      | cons b t =>
        rw [← hl]
        have hne : l ≠ [] := by simp [hl]
        rw [List.getLast?_eq_getLast l hne, Option.some.injEq] at ha
        rw [← ha]
        exact List.getLast_mem hne
    exact h a this

/-- Trimming preserves a head that fails the predicate. -/
theorem trim_head_preserved (l : List α) (a : α)
    (h : l.head? = some a) (hp : p a = false) :
    (l.dropWhile p).rdropWhile p ≠ [] ∧ ((l.dropWhile p).rdropWhile p).head? = some a := by
  obtain ⟨t, rfl⟩ : ∃ t, l = a :: t := by
    cases l with
    | nil => exact Option.noConfusion h
    | cons b s =>
      simp only [List.head?_cons, Option.some.injEq] at h
      exact ⟨s, by rw [h]⟩
  have h1 : (a :: t).dropWhile p = a :: t := by simp [List.dropWhile_cons, hp]
  rw [h1]
  have hne : (a :: t).rdropWhile p ≠ [] := by
    rw [Ne, List.rdropWhile_eq_nil_iff]
    intro hall
    have := hall a (by simp)
    rw [hp] at this
    exact Bool.noConfusion this
  refine ⟨hne, ?_⟩
  obtain ⟨u, hu⟩ := List.rdropWhile_prefix p (a :: t)
  cases h2 : (a :: t).rdropWhile p with
  | nil => exact absurd h2 hne
  | cons b s =>
    rw [h2] at hu
    simp only [List.cons_append, List.cons.injEq] at hu
    simp [hu.1]

end TrimLemmas

/-- `jsTrim` is idempotent. -/
theorem jsTrim_idem (cs : List Char) : jsTrim (jsTrim cs) = jsTrim cs :=
  trim_idem isJsSpace cs

theorem jsTrim_length_le (cs : List Char) : (jsTrim cs).length ≤ cs.length :=
  trim_length_le isJsSpace cs

theorem jsTrim_head?_not (cs : List Char) (a : Char) (h : (jsTrim cs).head? = some a) :
    isJsSpace a = false :=
  trim_head?_not isJsSpace cs a h

theorem jsTrim_eq_self_of_all (cs : List Char) (h : ∀ a ∈ cs, isJsSpace a = false) :
    jsTrim cs = cs :=
  trim_eq_self_of_all isJsSpace cs h

theorem findSplitIndex_le (cs : List Char) : ∀ k, findSplitIndex cs k ≤ k
  | 0 => Nat.le_refl 0
  | k + 1 => by
    rw [findSplitIndex]
    split
    · exact Nat.le_refl _
    · exact Nat.le_trans (findSplitIndex_le cs k) (Nat.le_succ k)

theorem findSplitIndex_no_space (cs : List Char) (h : ∀ c ∈ cs, isJsSpace c = false) :
    ∀ k, findSplitIndex cs k = 0
  | 0 => rfl
  | k + 1 => by
    rw [findSplitIndex]
    have hne : cs.getD (k + 1) '\x00' ≠ ' ' := by
      rw [List.getD_eq_getD_get?]
      cases hg : cs.get? (k + 1) with
      | none => decide
      | some c =>
        have hc := h c (List.get?_mem hg)
        intro hcc
        simp only [Option.getD_some] at hcc
        rw [hcc] at hc
        exact absurd hc (by decide)
    rw [if_neg hne]
    exact findSplitIndex_no_space cs h k

/-- The split index chosen by an overflow iteration, as an `Int`. -/
theorem wrapStep_eq (effective : Int) (remaining : List Char) :
    wrapStep effective remaining =
      (jsTrim (remaining.take (wrapStepS effective remaining).toNat),
       jsTrim (remaining.drop (wrapStepS effective remaining).toNat)) := rfl

theorem wrapStepS_nonpos (effective : Int) (remaining : List Char) (he : effective ≤ 0) :
    wrapStepS effective remaining = effective := by
  rw [wrapStepS, if_pos he]

theorem wrapStepS_bounds (effective : Int) (remaining : List Char) (he : 1 ≤ effective) :
    1 ≤ wrapStepS effective remaining ∧ wrapStepS effective remaining ≤ effective := by
  rw [wrapStepS, if_neg (by omega)]
  have h1 := findSplitIndex_le remaining effective.toNat
  split
  · exact ⟨he, le_rfl⟩
  · next h0 =>
    constructor
    · omega
    · omega

/-- Chunks pushed by an overflow iteration have length at most `effective`. -/
theorem wrapStep_fst_length (effective : Int) (remaining : List Char)
    (he : 1 ≤ effective) : ((wrapStep effective remaining).1.length : Int) ≤ effective := by
  show ((jsTrim (remaining.take (wrapStepS effective remaining).toNat)).length : Int) ≤
    effective
  have hs := (wrapStepS_bounds effective remaining he).2
  have h1 : (jsTrim (remaining.take (wrapStepS effective remaining).toNat)).length ≤
      (remaining.take (wrapStepS effective remaining).toNat).length :=
    jsTrim_length_le _
  have h2 := List.length_take (wrapStepS effective remaining).toNat remaining
  omega

/-- An overflow iteration strictly shrinks the remaining text when the
effective width is positive. -/
theorem wrapStep_snd_length (effective : Int) (remaining : List Char)
    (he : 1 ≤ effective) (hr : (effective : Int) < remaining.length) :
    (wrapStep effective remaining).2.length < remaining.length := by
  show (jsTrim (remaining.drop (wrapStepS effective remaining).toNat)).length <
    remaining.length
  have hs := (wrapStepS_bounds effective remaining he).1
  have h1 : (jsTrim (remaining.drop (wrapStepS effective remaining).toNat)).length ≤
      (remaining.drop (wrapStepS effective remaining).toNat).length :=
    jsTrim_length_le _
  have h2 := List.length_drop (wrapStepS effective remaining).toNat remaining
  omega

/-- A non-positive effective width makes an overflow iteration a no-op on
trimmed text: the remaining text does not shrink (the JavaScript loop spins
forever). -/
theorem wrapStep_snd_nonpos (effective : Int) (remaining : List Char)
    (he : effective ≤ 0) (hr : jsTrim remaining = remaining) :
    (wrapStep effective remaining).2 = remaining := by
  show jsTrim (remaining.drop (wrapStepS effective remaining).toNat) = remaining
  rw [wrapStepS_nonpos _ _ he]
  rw [show effective.toNat = 0 from by omega]
  rw [List.drop_zero]
  exact hr

theorem wrapStep_snd_trim (effective : Int) (remaining : List Char) :
    jsTrim (wrapStep effective remaining).2 = (wrapStep effective remaining).2 :=
  jsTrim_idem _

/-- Chunks pushed by an overflow iteration on trimmed nonempty text are
nonempty and do not start with whitespace. -/
theorem wrapStep_fst_head (effective : Int) (remaining : List Char)
    (he : 1 ≤ effective) (hr : jsTrim remaining = remaining) (hne : remaining ≠ []) :
    (wrapStep effective remaining).1 ≠ [] ∧
      isJsSpace ((wrapStep effective remaining).1.headD 'a') = false := by
  obtain ⟨a, t, rfl⟩ : ∃ a t, remaining = a :: t := by
    cases remaining with
    | nil => exact absurd rfl hne
    | cons a t => exact ⟨a, t, rfl⟩
  have hha : isJsSpace a = false := by
    have : (jsTrim (a :: t)).head? = some a := by rw [hr]; rfl
    exact jsTrim_head?_not _ a this
  have hs := (wrapStepS_bounds effective (a :: t) he).1
  obtain ⟨k, hk⟩ : ∃ k, (wrapStepS effective (a :: t)).toNat = k + 1 := by
    have : 1 ≤ (wrapStepS effective (a :: t)).toNat := by omega
    exact ⟨(wrapStepS effective (a :: t)).toNat - 1, by omega⟩
  show jsTrim ((a :: t).take (wrapStepS effective (a :: t)).toNat) ≠ [] ∧
    isJsSpace ((jsTrim ((a :: t).take (wrapStepS effective (a :: t)).toNat)).headD 'a') = false
  rw [hk]
  rw [show (a :: t).take (k + 1) = a :: t.take k from rfl]
  have hpres := trim_head_preserved isJsSpace (a :: t.take k) a rfl hha
  refine ⟨hpres.1, ?_⟩
  cases h2 : jsTrim (a :: t.take k) with
  | nil => exact absurd h2 hpres.1
  | cons b s =>
    have h3 : (jsTrim (a :: t.take k)).head? = some a := hpres.2
    rw [h2] at h3
    simp only [List.head?_cons, Option.some.injEq] at h3
    rw [List.headD_cons, h3]
    exact hha

/-- With a non-positive effective width and nonempty trimmed text, the loop of
`wrapTextPart` never terminates (every fuel bound is exhausted). -/
theorem wrapTextPartAux_nonpos (effective : Int) (ind : List Char)
    (he : effective ≤ 0) :
    ∀ (fuel : Nat) (r : List Char) (isF : Bool), r ≠ [] → jsTrim r = r →
      wrapTextPartAux effective ind fuel r isF = none
  | 0, r, isF, hne, _ => by
    rw [wrapTextPartAux, if_neg (by simpa using hne)]
  | fuel + 1, r, isF, hne, hr => by
    rw [wrapTextPartAux]
    rw [if_neg (by simpa using hne)]
    rw [if_neg (by have : 1 ≤ r.length := List.length_pos.mpr hne; omega)]
    dsimp only
    have hrw := wrapStep_snd_nonpos effective r he hr
    rw [hrw]
    rw [wrapTextPartAux_nonpos effective ind he fuel r false hne hr]
    rfl

/-- With a positive effective width the loop of `wrapTextPart` terminates:
fuel exceeding the text length suffices. -/
theorem wrapTextPartAux_some (effective : Int) (ind : List Char)
    (he : 1 ≤ effective) :
    ∀ (fuel : Nat) (r : List Char) (isF : Bool), r.length < fuel → jsTrim r = r →
      ∃ out, wrapTextPartAux effective ind fuel r isF = some out
  | 0, r, isF, hfuel, _ => absurd hfuel (by omega)
  | fuel + 1, r, isF, hfuel, hr => by
    rw [wrapTextPartAux]
    by_cases h0 : r.length = 0
    · exact ⟨[], by rw [if_pos h0]⟩
    · rw [if_neg h0]
      by_cases h1 : (r.length : Int) ≤ effective
      · exact ⟨_, by rw [if_pos h1]⟩
      · rw [if_neg h1]
        dsimp only
        have hlt : (wrapStep effective r).2.length < r.length :=
          wrapStep_snd_length effective r he (by omega)
        obtain ⟨out, hout⟩ := wrapTextPartAux_some effective ind he fuel
          (wrapStep effective r).2 false (by omega) (wrapStep_snd_trim effective r)
        exact ⟨_, by rw [hout]; rfl⟩

/-- Every line pushed by the loop of `wrapTextPart` has length at most
`ind.length + effective` (when the loop terminates on trimmed input). -/
theorem wrapTextPartAux_length (effective : Int) (ind : List Char) :
    ∀ (fuel : Nat) (r : List Char) (isF : Bool) (out : List (List Char)),
      jsTrim r = r → wrapTextPartAux effective ind fuel r isF = some out →
      ∀ l ∈ out, (l.length : Int) ≤ ind.length + effective
  | 0, r, isF, out, _, hout => by
    rw [wrapTextPartAux] at hout
    split at hout
    · cases hout
      intro l hl
      exact absurd hl (List.not_mem_nil l)
    · exact Option.noConfusion hout
  | fuel + 1, r, isF, out, hr, hout => by
    rw [wrapTextPartAux] at hout
    split at hout
    · cases hout
      intro l hl
      exact absurd hl (List.not_mem_nil l)
    · split at hout
      · next h1 =>
        cases hout
        intro l hl
        rw [List.mem_singleton] at hl
        subst hl
        rw [List.length_append]
        have : ((if isF then ind else []).length : Int) ≤ ind.length := by
          split <;> simp
        push_cast
        omega
      · next h0 h1 =>
        dsimp only at hout
        by_cases he : 1 ≤ effective
        · cases hmap : wrapTextPartAux effective ind fuel (wrapStep effective r).2 false with
          | none => rw [hmap] at hout; exact Option.noConfusion hout
          | some out' =>
            rw [hmap] at hout
            simp only [Option.map_some'] at hout
            cases hout
            intro l hl
            rw [List.mem_cons] at hl
            rcases hl with rfl | hl
            · rw [List.length_append]
              have h2 : ((wrapStep effective r).1.length : Int) ≤ effective :=
                wrapStep_fst_length effective r he
              have : ((if isF then ind else []).length : Int) ≤ ind.length := by
                split <;> simp
              push_cast
              push_cast at h2
              omega
            · exact wrapTextPartAux_length effective ind fuel (wrapStep effective r).2
                false out' (wrapStep_snd_trim effective r) hmap l hl
        · have hne : r ≠ [] := by
            intro h2
            rw [h2] at h0
            exact h0 rfl
          have := wrapTextPartAux_nonpos effective ind (by omega) (fuel + 1) r isF hne hr
          rw [wrapTextPartAux] at this
          rw [if_neg (by simpa using hne), if_neg h1] at this
          rw [this] at hout
          exact Option.noConfusion hout

/-- The last element of a two-sided trim fails the predicate. -/
theorem trim_getLast?_not {α : Type} (p : α → Bool) (l : List α) (a : α)
    (h : ((l.dropWhile p).rdropWhile p).getLast? = some a) : p a = false := by
  have hne : (l.dropWhile p).rdropWhile p ≠ [] := by
    intro h0
    rw [h0] at h
    exact Option.noConfusion h
  have hd := List.rdropWhile_last_not p (l.dropWhile p) hne
  have h3 : ((l.dropWhile p).rdropWhile p).getLast hne = a := by
    rw [List.getLast?_eq_getLast _ hne, Option.some.injEq] at h
    exact h
  rw [h3] at hd
  simpa using hd

theorem jsTrim_getLast?_not (cs : List Char) (a : Char) (h : (jsTrim cs).getLast? = some a) :
    isJsSpace a = false :=
  trim_getLast?_not isJsSpace cs a h

theorem ptrim_idem (ts : List PTok) : ptrim (ptrim ts) = ptrim ts :=
  trim_idem isTokSpace ts

theorem charsOf_map (xs : List Char) : charsOf (xs.map PTok.ch) = xs := by
  induction xs with
  | nil => rfl
  | cons c t ih => simp [charsOf, ih]

/-- A marker-free token list is the image of its characters. -/
theorem eq_map_of_no_marker : ∀ ts : List PTok, ts.any (· = PTok.marker) = false →
    ts = (charsOf ts).map PTok.ch
  | [], _ => rfl
  | .ch c :: rest, h => by
    have h' : rest.any (· = PTok.marker) = false := by
      simp only [List.any_cons, Bool.or_eq_false_iff] at h
      exact h.2
    have ih := eq_map_of_no_marker rest h'
    simp only [charsOf, List.map_cons]
    exact List.cons_eq_cons.mpr ⟨rfl, ih⟩
  | .marker :: rest, h => by
    simp at h

theorem ptrim_map_ch (xs : List Char) : ptrim (xs.map PTok.ch) = (jsTrim xs).map PTok.ch := by
  have hdw : ∀ ys : List Char,
      (ys.map PTok.ch).dropWhile isTokSpace = (ys.dropWhile isJsSpace).map PTok.ch := by
    intro ys
    induction ys with
    | nil => rfl
    | cons c t ih =>
      by_cases hc : isJsSpace c
      · simpa [List.dropWhile_cons, isTokSpace, hc] using ih
      · simp [List.dropWhile_cons, isTokSpace, hc]
  show ((xs.map PTok.ch).dropWhile isTokSpace).rdropWhile isTokSpace =
    ((xs.dropWhile isJsSpace).rdropWhile isJsSpace).map PTok.ch
  rw [hdw]
  rw [List.rdropWhile, List.rdropWhile]
  rw [← List.map_reverse, hdw, ← List.map_reverse]

/-- In the marker-free branch, the characters of the trimmed token line are a
trimmed character list. -/
theorem jsTrim_charsOf_ptrim (line : List PTok)
    (h : (ptrim line).any (· = PTok.marker) = false) :
    jsTrim (charsOf (ptrim line)) = charsOf (ptrim line) := by
  have h1 : ptrim line = (charsOf (ptrim line)).map PTok.ch := eq_map_of_no_marker _ h
  have h3 : (jsTrim (charsOf (ptrim line))).map PTok.ch =
      (charsOf (ptrim line)).map PTok.ch := by
    rw [← ptrim_map_ch, ← h1]
    exact ptrim_idem line
  have hinj : Function.Injective PTok.ch := fun x y hxy => by
    cases hxy
    rfl
  exact List.map_injective_iff.mpr hinj h3

/-- A character that is neither `\n` nor `\r` starts no break unit. -/
theorem breakRun_not_break (c : Char) (t : List Char) (h1 : c ≠ '\n') (h2 : c ≠ '\r') :
    breakRun (c :: t) = (0, c :: t) := by
  cases t <;> simp [breakRun, h1, h2]

theorem breakRun_single_nl (b : List Char) (hb : ∀ c ∈ b, c ≠ '\n' ∧ c ≠ '\r') :
    breakRun ('\n' :: b) = (1, b) := by
  cases b with
  | nil => rfl
  | cons x xs =>
    have hx := hb x (List.mem_cons_self x xs)
    simp [breakRun, breakRun_not_break x xs hx.1 hx.2]

theorem breakRun_double_nl (b : List Char) (hb : ∀ c ∈ b, c ≠ '\n' ∧ c ≠ '\r') :
    breakRun ('\n' :: '\n' :: b) = (2, b) := by
  simp [breakRun, breakRun_single_nl b hb]

/-- On newline-free text the marker scan is the identity embedding. -/
theorem insertMarkersAux_map : ∀ (cs : List Char) (fuel : Nat), cs.length ≤ fuel →
    (∀ c ∈ cs, c ≠ '\n' ∧ c ≠ '\r') → insertMarkersAux fuel cs = cs.map PTok.ch
  | [], fuel, _, _ => by cases fuel <;> rfl
  | c :: rest, fuel, hf, h => by
    obtain ⟨f, rfl⟩ : ∃ f, fuel = f + 1 := by
      cases fuel with
      | zero => simp at hf
      | succ f => exact ⟨f, rfl⟩
    have hc := h c (List.mem_cons_self c rest)
    rw [insertMarkersAux]
    rw [breakRun_not_break c rest hc.1 hc.2]
    rw [if_neg (by norm_num)]
    have ih := insertMarkersAux_map rest f (by simp at hf; omega)
      (fun x hx => h x (List.mem_cons_of_mem _ hx))
    rw [ih]
    rfl

theorem insertMarkers_map (cs : List Char) (h : ∀ c ∈ cs, c ≠ '\n' ∧ c ≠ '\r') :
    insertMarkers cs = cs.map PTok.ch :=
  insertMarkersAux_map cs cs.length (Nat.le_refl _) h

/-- A double line break between two newline-free texts becomes the marker. -/
theorem insertMarkersAux_boundary :
    ∀ (a : List Char) (fuel : Nat) (b : List Char),
      (a ++ '\n' :: '\n' :: b).length ≤ fuel →
      (∀ c ∈ a, c ≠ '\n' ∧ c ≠ '\r') → (∀ c ∈ b, c ≠ '\n' ∧ c ≠ '\r') →
      insertMarkersAux fuel (a ++ '\n' :: '\n' :: b) =
        a.map PTok.ch ++ PTok.marker :: b.map PTok.ch
  | [], fuel, b, hf, _, hb => by
    obtain ⟨f, rfl⟩ : ∃ f, fuel = f + 1 := by
      cases fuel with
      | zero => simp at hf
      | succ f => exact ⟨f, rfl⟩
    rw [List.nil_append, insertMarkersAux]
    rw [breakRun_double_nl b hb]
    rw [if_pos (by norm_num)]
    rw [insertMarkersAux_map b f (by simp at hf; omega) hb]
    rfl
  | a0 :: a', fuel, b, hf, ha, hb => by
    obtain ⟨f, rfl⟩ : ∃ f, fuel = f + 1 := by
      cases fuel with
      | zero => simp at hf
      | succ f => exact ⟨f, rfl⟩
    have h0 := ha a0 (List.mem_cons_self a0 a')
    rw [List.cons_append, insertMarkersAux]
    rw [breakRun_not_break a0 (a' ++ '\n' :: '\n' :: b) h0.1 h0.2]
    rw [if_neg (by norm_num)]
    have ih := insertMarkersAux_boundary a' f b (by simp at hf ⊢; omega)
      (fun x hx => ha x (List.mem_cons_of_mem _ hx)) hb
    rw [ih]
    rfl

theorem insertMarkers_boundary (a b : List Char)
    (ha : ∀ c ∈ a, c ≠ '\n' ∧ c ≠ '\r') (hb : ∀ c ∈ b, c ≠ '\n' ∧ c ≠ '\r') :
    insertMarkers (a ++ '\n' :: '\n' :: b) = a.map PTok.ch ++ PTok.marker :: b.map PTok.ch :=
  insertMarkersAux_boundary a _ b (Nat.le_refl _) ha hb

/-- A token stream whose characters are all newline-free is a single line. -/
theorem splitPLinesAux_clean : ∀ (ts : List PTok) (cur : List PTok),
    (∀ t ∈ ts, ∀ c, t = PTok.ch c → c ≠ '\n' ∧ c ≠ '\r') →
    splitPLinesAux cur ts = [cur.reverse ++ ts]
  | [], cur, _ => by simp [splitPLinesAux]
  | .marker :: rest, cur, h => by
    rw [splitPLinesAux]
    rw [splitPLinesAux_clean rest (.marker :: cur)
      (fun t ht c htc => h t (List.mem_cons_of_mem _ ht) c htc)]
    simp
  | .ch c :: rest, cur, h => by
    have hc := h (.ch c) (List.mem_cons_self _ rest) c rfl
    rw [splitPLinesAux.eq_def]
    dsimp only
    rw [if_neg hc.1, if_neg hc.2]
    rw [splitPLinesAux_clean rest (.ch c :: cur)
      (fun t ht c' htc => h t (List.mem_cons_of_mem _ ht) c' htc)]
    simp

theorem splitPLines_clean (ts : List PTok)
    (h : ∀ t ∈ ts, ∀ c, t = PTok.ch c → c ≠ '\n' ∧ c ≠ '\r') :
    splitPLines ts = [ts] := by
  rw [splitPLines, splitPLinesAux_clean ts [] h]
  rfl

theorem getLast?_map_ch : ∀ xs : List Char,
    (xs.map PTok.ch).getLast? = xs.getLast?.map PTok.ch
  | [] => rfl
  | [_] => rfl
  | c :: c2 :: t => by
    show (PTok.ch c :: PTok.ch c2 :: t.map PTok.ch).getLast? = _
    rw [List.getLast?_cons_cons, List.getLast?_cons_cons]
    exact getLast?_map_ch (c2 :: t)

/-- The paragraph-boundary token line built from two trimmed texts is itself
trimmed. -/
theorem ptrim_boundary (a b : List Char) (ha : a ≠ []) (hb : b ≠ [])
    (hta : jsTrim a = a) (htb : jsTrim b = b) :
    ptrim (a.map PTok.ch ++ PTok.marker :: b.map PTok.ch) =
      a.map PTok.ch ++ PTok.marker :: b.map PTok.ch := by
  apply trim_eq_self
  · intro t ht
    obtain ⟨a0, a', rfl⟩ : ∃ a0 a', a = a0 :: a' := by
      cases a with
      | nil => exact absurd rfl ha
      | cons a0 a' => exact ⟨a0, a', rfl⟩
    simp only [List.map_cons, List.cons_append, List.head?_cons, Option.some.injEq] at ht
    rw [← ht]
    show isJsSpace a0 = false
    exact jsTrim_head?_not (a0 :: a') a0 (by rw [hta]; rfl)
  · intro t ht
    have h1 : (a.map PTok.ch ++ PTok.marker :: b.map PTok.ch).getLast? =
        (b.map PTok.ch).getLast? := by
      rw [List.getLast?_append_cons]
      rw [show PTok.marker :: b.map PTok.ch = [PTok.marker] ++ b.map PTok.ch from rfl]
      exact List.getLast?_append_of_ne_nil [PTok.marker] (by simpa using hb)
    rw [h1, getLast?_map_ch b] at ht
    cases hbl : b.getLast? with
    | none =>
      rw [hbl] at ht
      exact Option.noConfusion ht
    | some bl =>
      rw [hbl] at ht
      simp only [Option.map_some', Option.some.injEq] at ht
      rw [← ht]
      show isJsSpace bl = false
      exact jsTrim_getLast?_not b bl (by rw [htb, hbl])

theorem splitMarkerAux_chars : ∀ (xs : List Char) (cur : List Char),
    splitMarkerAux cur (xs.map PTok.ch) = [cur.reverse ++ xs]
  | [], cur => by simp [splitMarkerAux]
  | c :: t, cur => by
    rw [List.map_cons, splitMarkerAux]
    rw [splitMarkerAux_chars t (c :: cur)]
    simp

theorem splitMarkerAux_boundary : ∀ (xs : List Char) (cur : List Char) (rest : List PTok),
    splitMarkerAux cur (xs.map PTok.ch ++ PTok.marker :: rest) =
      (cur.reverse ++ xs) :: splitMarkerAux [] rest
  | [], cur, rest => by simp [splitMarkerAux]
  | c :: t, cur, rest => by
    rw [List.map_cons, List.cons_append, splitMarkerAux]
    rw [splitMarkerAux_boundary t (c :: cur) rest]
    simp

theorem splitMarker_boundary (a b : List Char) :
    splitMarker (a.map PTok.ch ++ PTok.marker :: b.map PTok.ch) = [a, b] := by
  rw [splitMarker, splitMarkerAux_boundary a [] (b.map PTok.ch), splitMarkerAux_chars b []]
  simp

/-- `wrapTextPart` terminates on trimmed input at any width of at least 5. -/
theorem wrapTextPart_some (t : List Char) (m : Int) (b : Bool)
    (ht : jsTrim t = t) (hm : 5 ≤ m) : ∃ out, wrapTextPart t m b = some out := by
  show ∃ out, wrapTextPartAux (m - (((if b then [' ', ' ', ' ', ' '] else []) : List Char).length))
    (if b then [' ', ' ', ' ', ' '] else []) (t.length + 1) t true = some out
  refine wrapTextPartAux_some _ _ ?_ _ t true (by omega) ht
  cases b <;> simp <;> omega

theorem processParts_some (m : Int) (hm : 5 ≤ m) :
    ∀ (parts : List (List Char)) (j : Nat), ∃ out, processParts m j parts = some out
  | [], _ => ⟨[], rfl⟩
  | p :: rest, j => by
    obtain ⟨tail, htail⟩ := processParts_some m hm rest (j + 1)
    rw [processParts]
    by_cases h0 : (jsTrim p).length = 0
    · refine ⟨[] ++ tail, ?_⟩
      rw [if_pos h0]
      simp only [Option.bind_eq_bind, Option.some_bind]
      rw [htail]
      rfl
    · obtain ⟨head, hhead⟩ := wrapTextPart_some (jsTrim p) m (decide (0 < j))
        (jsTrim_idem p) hm
      refine ⟨head ++ tail, ?_⟩
      rw [if_neg h0]
      simp only [Option.bind_eq_bind]
      rw [hhead]
      simp only [Option.some_bind]
      rw [htail]
      rfl

theorem processOneLine_some (m : Int) (hm : 5 ≤ m) (line : List PTok) :
    ∃ out, processOneLine m line = some out := by
  rw [processOneLine]
  by_cases h0 : (ptrim line).length = 0
  · exact ⟨[[]], by rw [if_pos h0]⟩
  · rw [if_neg h0]
    by_cases h1 : (ptrim line).any (· = PTok.marker)
    · rw [if_pos h1]
      exact processParts_some m hm _ 0
    · rw [if_neg h1]
      exact wrapTextPart_some _ m false
        (jsTrim_charsOf_ptrim line (by rwa [← Bool.not_eq_true])) hm

theorem processLines_some (m : Int) (hm : 5 ≤ m) :
    ∀ lines : List (List PTok), ∃ out, processLines m lines = some out
  | [] => ⟨[], rfl⟩
  | line :: rest => by
    obtain ⟨head, hhead⟩ := processOneLine_some m hm line
    obtain ⟨tail, htail⟩ := processLines_some m hm rest
    refine ⟨head ++ tail, ?_⟩
    rw [processLines]
    simp only [Option.bind_eq_bind]
    rw [hhead]
    simp only [Option.some_bind]
    rw [htail]
    rfl

/-- Every line produced by `wrapTextPart` on trimmed input is at most
`maxLineLength` long. -/
theorem wrapTextPart_length (t : List Char) (m : Int) (b : Bool) (out : List (List Char))
    (ht : jsTrim t = t) (hout : wrapTextPart t m b = some out) :
    ∀ l ∈ out, (l.length : Int) ≤ m := by
  intro l hl
  have h2 := wrapTextPartAux_length
    (m - (((if b then [' ', ' ', ' ', ' '] else []) : List Char).length))
    (if b then [' ', ' ', ' ', ' '] else []) (t.length + 1) t true out ht hout l hl
  omega

theorem processParts_length (m : Int) (hm : 1 ≤ m) :
    ∀ (parts : List (List Char)) (j : Nat) (out : List (List Char)),
      processParts m j parts = some out → ∀ l ∈ out, (l.length : Int) ≤ m
  | [], _, out, hout => by
    cases hout
    intro l hl
    exact absurd hl (List.not_mem_nil l)
  | p :: rest, j, out, hout => by
    rw [processParts] at hout
    simp only [Option.bind_eq_bind] at hout
    split at hout
    · simp only [Option.some_bind] at hout
      cases hrec : processParts m (j + 1) rest with
      | none => rw [hrec] at hout; exact Option.noConfusion hout
      | some tail =>
        rw [hrec] at hout
        simp only [Option.some_bind, Option.pure_def, Option.some.injEq] at hout
        subst hout
        intro l hl
        rw [List.nil_append] at hl
        exact processParts_length m hm rest (j + 1) tail hrec l hl
    · cases hw : wrapTextPart (jsTrim p) m (decide (0 < j)) with
      | none => rw [hw] at hout; exact Option.noConfusion hout
      | some head =>
        rw [hw] at hout
        simp only [Option.some_bind] at hout
        cases hrec : processParts m (j + 1) rest with
        | none => rw [hrec] at hout; exact Option.noConfusion hout
        | some tail =>
          rw [hrec] at hout
          simp only [Option.some_bind, Option.pure_def, Option.some.injEq] at hout
          subst hout
          intro l hl
          rcases List.mem_append.mp hl with hl | hl
          · exact wrapTextPart_length (jsTrim p) m _ head (jsTrim_idem p) hw l hl
          · exact processParts_length m hm rest (j + 1) tail hrec l hl

theorem processOneLine_length (m : Int) (hm : 1 ≤ m) (line : List PTok)
    (out : List (List Char)) (hout : processOneLine m line = some out) :
    ∀ l ∈ out, (l.length : Int) ≤ m := by
  rw [processOneLine] at hout
  split at hout
  · cases hout
    intro l hl
    rw [List.mem_singleton] at hl
    subst hl
    simp only [List.length_nil, Nat.cast_zero]
    omega
  · split at hout
    · exact processParts_length m hm _ 0 out hout
    · next h0 h1 =>
      exact wrapTextPart_length _ m false out
        (jsTrim_charsOf_ptrim line (by rwa [← Bool.not_eq_true])) hout

theorem processLines_length (m : Int) (hm : 1 ≤ m) :
    ∀ (lines : List (List PTok)) (out : List (List Char)),
      processLines m lines = some out → ∀ l ∈ out, (l.length : Int) ≤ m
  | [], out, hout => by
    cases hout
    intro l hl
    exact absurd hl (List.not_mem_nil l)
  | line :: rest, out, hout => by
    rw [processLines] at hout
    simp only [Option.bind_eq_bind] at hout
    cases hone : processOneLine m line with
    | none => rw [hone] at hout; exact Option.noConfusion hout
    | some head =>
      rw [hone] at hout
      simp only [Option.some_bind] at hout
      cases hrec : processLines m rest with
      | none => rw [hrec] at hout; exact Option.noConfusion hout
      | some tail =>
        rw [hrec] at hout
        simp only [Option.some_bind, Option.pure_def, Option.some.injEq] at hout
        subst hout
        intro l hl
        rcases List.mem_append.mp hl with hl | hl
        · exact processOneLine_length m hm line head hone l hl
        · exact processLines_length m hm rest tail hrec l hl

theorem any_marker_map (xs : List Char) :
    (xs.map PTok.ch).any (· = PTok.marker) = false := by
  induction xs with
  | nil => rfl
  | cons c t ih => simp

/-- A single word longer than the limit is force-broken exactly at the
limit: the first output line is exactly the word's first `maxLineLength`
characters. -/
theorem wrapText_force_break (w : List Char) (m : Int) (hm : 1 ≤ m) (hw : w ≠ [])
    (hns : ∀ c ∈ w, isJsSpace c = false) (hlen : m < (w.length : Int)) :
    ∃ rest, wrapText w m = some (w.take m.toNat :: rest) := by
  have hnl : ∀ c ∈ w, c ≠ '\n' ∧ c ≠ '\r' := by
    intro c hc
    have h1 := hns c hc
    constructor <;> (intro h; rw [h] at h1; exact absurd h1 (by decide))
  have htw : jsTrim w = w := jsTrim_eq_self_of_all w hns
  rw [wrapText, insertMarkers_map w hnl]
  rw [splitPLines_clean (w.map PTok.ch) (by
    intro t ht c htc
    obtain ⟨c', hc', rfl⟩ := List.mem_map.mp ht
    cases htc
    exact hnl _ hc')]
  have hone : processOneLine m (w.map PTok.ch) = wrapTextPart w m false := by
    rw [processOneLine]
    have hpt : ptrim (w.map PTok.ch) = w.map PTok.ch := by
      rw [ptrim_map_ch, htw]
    rw [hpt]
    rw [if_neg (by simpa using hw)]
    rw [if_neg (by rw [any_marker_map]; exact Bool.false_ne_true)]
    rw [charsOf_map]
  have hchunk : (wrapStep m w).1 = w.take m.toNat := by
    show jsTrim (w.take (wrapStepS m w).toNat) = w.take m.toNat
    have hs : wrapStepS m w = m := by
      rw [wrapStepS, if_neg (by omega), findSplitIndex_no_space w hns, if_pos rfl]
    rw [hs]
    exact jsTrim_eq_self_of_all _ (fun c hc => hns c (List.take_subset _ _ hc))
  obtain ⟨tail, htail⟩ := wrapTextPartAux_some m [] (by omega) w.length
    (wrapStep m w).2 false (wrapStep_snd_length m w (by omega) hlen)
    (wrapStep_snd_trim m w)
  refine ⟨tail ++ [], ?_⟩
  rw [processLines]
  simp only [Option.bind_eq_bind]
  rw [hone]
  have hpart : wrapTextPart w m false = some (w.take m.toNat :: tail) := by
    show wrapTextPartAux (m - ((([] : List Char)).length : Int)) [] (w.length + 1) w true =
      some (w.take m.toNat :: tail)
    rw [show m - ((([] : List Char)).length : Int) = m from by simp]
    rw [wrapTextPartAux]
    rw [if_neg (by simpa using hw)]
    rw [if_neg (by omega)]
    dsimp only
    rw [htail]
    simp only [Option.map_some', if_true, List.nil_append, hchunk]
  rw [hpart]
  simp only [Option.some_bind, processLines, Option.pure_def, Option.some.injEq]
  rfl

/-- C5.  Every line returned by `wrapText` fits within `maxLineLength`, and a
single word longer than the limit is force-broken exactly at the limit. -/
theorem C5_line_length :
    (∀ (text : List Char) (m : Int) (ls : List (List Char)), 1 ≤ m →
      wrapText text m = some ls → ∀ l ∈ ls, (l.length : Int) ≤ m) ∧
    (∀ (w : List Char) (m : Int), 1 ≤ m → w ≠ [] →
      (∀ c ∈ w, isJsSpace c = false) → m < (w.length : Int) →
      ∃ rest, wrapText w m = some (w.take m.toNat :: rest)) :=
  ⟨fun _ m ls hm hsome => processLines_length m hm _ ls hsome,
   fun w m hm hw hns hlen => wrapText_force_break w m hm hw hns hlen⟩

theorem C5_line_length_witness :
    (wrapText "hello world this is a test of wrap".toList 11 =
      some ["hello world".toList, "this is a".toList, "test of".toList, "wrap".toList] ∧
     ∀ l ∈ ["hello world".toList, "this is a".toList, "test of".toList, "wrap".toList],
       (l.length : Int) ≤ 11) ∧
    ∃ rest, wrapText "superlongword".toList 5 =
      some ("superlongword".toList.take (5 : Int).toNat :: rest) :=
  ⟨⟨by decide, C5_line_length.1 "hello world this is a test of wrap".toList 11
      ["hello world".toList, "this is a".toList, "test of".toList, "wrap".toList]
      (by decide) (by decide)⟩,
   C5_line_length.2 "superlongword".toList 5 (by decide) (by decide) (by decide) (by decide)⟩

/-- C10 counterexample.  `wrapText` does not terminate for every positive
width: at width 4 the 4-space paragraph indentation leaves an effective line
length of 0, the overflow iteration returns the remaining text unchanged
(second conjunct), and `wrapText "A\n\nB" 4` diverges (modelled as `none`). -/
theorem C10_termination_counterexample :
    wrapText "A\n\nB".toList 4 = none ∧
    (wrapStep (4 - 4) "B".toList).2 = "B".toList := by
  constructor
  · decide
  · decide

/-- C10 as amended: `wrapText` terminates for every input text and every
width of at least 5 (the inner loop strictly shrinks the remaining text
whenever the effective line length is positive); for widths at most 4 an
indented paragraph makes the loop spin without shrinking. -/
theorem C10_termination :
    (∀ (text : List Char) (m : Int), 5 ≤ m → ∃ out, wrapText text m = some out) ∧
    (∀ (effective : Int) (r : List Char), 1 ≤ effective → effective < (r.length : Int) →
      (wrapStep effective r).2.length < r.length) :=
  ⟨fun _ m hm => processLines_some m hm _,
   fun e r he hr => wrapStep_snd_length e r he hr⟩

theorem C10_termination_witness :
    (5 : Int) ≤ 5 ∧ ∃ out, wrapText "hello there".toList 5 = some out :=
  ⟨by decide, C10_termination.1 "hello there".toList 5 (by decide)⟩

/-- No line pushed by a terminating `wrapTextPart` loop is empty. -/
theorem wrapTextPartAux_ne_nil (effective : Int) (ind : List Char) (he : 1 ≤ effective) :
    ∀ (fuel : Nat) (r : List Char) (isF : Bool) (out : List (List Char)),
      jsTrim r = r → wrapTextPartAux effective ind fuel r isF = some out →
      ∀ l ∈ out, l ≠ []
  | 0, r, isF, out, _, hout => by
    rw [wrapTextPartAux] at hout
    split at hout
    · cases hout
      intro l hl
      exact absurd hl (List.not_mem_nil l)
    · exact Option.noConfusion hout
  | fuel + 1, r, isF, out, hr, hout => by
    rw [wrapTextPartAux] at hout
    split at hout
    · cases hout
      intro l hl
      exact absurd hl (List.not_mem_nil l)
    · split at hout
      · next h0 h1 =>
        cases hout
        intro l hl
        rw [List.mem_singleton] at hl
        subst hl
        intro hcontra
        rcases List.append_eq_nil.mp hcontra with ⟨-, h2⟩
        exact h0 (by rw [h2]; rfl)
      · next h0 h1 =>
        dsimp only at hout
        cases hmap : wrapTextPartAux effective ind fuel (wrapStep effective r).2 false with
        | none => rw [hmap] at hout; exact Option.noConfusion hout
        | some out' =>
          rw [hmap] at hout
          simp only [Option.map_some', Option.some.injEq] at hout
          subst hout
          intro l hl
          rcases List.mem_cons.mp hl with rfl | hl
          · intro hcontra
            rcases List.append_eq_nil.mp hcontra with ⟨-, h2⟩
            exact (wrapStep_fst_head effective r he hr (fun h3 => h0 (by rw [h3]; rfl))).1 h2
          · exact wrapTextPartAux_ne_nil effective ind he fuel (wrapStep effective r).2 false
              out' (wrapStep_snd_trim effective r) hmap l hl

/-- Lines pushed after the first line of a part are nonempty and never start
with whitespace — in particular they never carry the 4-space indent. -/
theorem wrapTextPartAux_false_head (effective : Int) (ind : List Char) (he : 1 ≤ effective) :
    ∀ (fuel : Nat) (r : List Char) (out : List (List Char)),
      jsTrim r = r → wrapTextPartAux effective ind fuel r false = some out →
      ∀ l ∈ out, l ≠ [] ∧ isJsSpace (l.headD 'a') = false
  | 0, r, out, _, hout => by
    rw [wrapTextPartAux] at hout
    split at hout
    · cases hout
      intro l hl
      exact absurd hl (List.not_mem_nil l)
    · exact Option.noConfusion hout
  | fuel + 1, r, out, hr, hout => by
    rw [wrapTextPartAux] at hout
    split at hout
    · cases hout
      intro l hl
      exact absurd hl (List.not_mem_nil l)
    · split at hout
      · next h0 h1 =>
        cases hout
        intro l hl
        rw [List.mem_singleton] at hl
        obtain ⟨c, t, rfl⟩ : ∃ c t, r = c :: t := by
          cases r with
          | nil => exact absurd rfl h0
          | cons c t => exact ⟨c, t, rfl⟩
        have hhd : isJsSpace c = false :=
          jsTrim_head?_not (c :: t) c (by rw [hr]; rfl)
        subst hl
        refine ⟨by simp, ?_⟩
        simpa using hhd
      · next h0 h1 =>
        dsimp only at hout
        cases hmap : wrapTextPartAux effective ind fuel (wrapStep effective r).2 false with
        | none => rw [hmap] at hout; exact Option.noConfusion hout
        | some out' =>
          rw [hmap] at hout
          simp only [Option.map_some', Option.some.injEq] at hout
          subst hout
          intro l hl
          rcases List.mem_cons.mp hl with rfl | hl
          · have hstep := wrapStep_fst_head effective r he hr
              (fun h3 => h0 (by rw [h3]; rfl))
            simpa using hstep
          · exact wrapTextPartAux_false_head effective ind he fuel (wrapStep effective r).2
              out' (wrapStep_snd_trim effective r) hmap l hl

/-- The shape of an indented part: the first wrapped line carries the 4-space
prefix and every later line is nonempty and unindented. -/
theorem wrapTextPart_indent (t : List Char) (m : Int) (hm : 5 ≤ m) (ht : t ≠ [])
    (htr : jsTrim t = t) :
    ∃ l0 rest, wrapTextPart t m true = some ((' ' :: ' ' :: ' ' :: ' ' :: l0) :: rest) ∧
      ∀ l ∈ rest, l ≠ [] ∧ isJsSpace (l.headD 'a') = false := by
  have he : (1 : Int) ≤ m - 4 := by omega
  show ∃ l0 rest,
    wrapTextPartAux (m - (([' ', ' ', ' ', ' '] : List Char).length : Int))
      [' ', ' ', ' ', ' '] (t.length + 1) t true =
        some ((' ' :: ' ' :: ' ' :: ' ' :: l0) :: rest) ∧
      ∀ l ∈ rest, l ≠ [] ∧ isJsSpace (l.headD 'a') = false
  rw [show (m - (([' ', ' ', ' ', ' '] : List Char).length : Int)) = m - 4 from by simp]
  rw [wrapTextPartAux]
  rw [if_neg (by simpa using ht)]
  by_cases h1 : (t.length : Int) ≤ m - 4
  · rw [if_pos h1]
    exact ⟨t, [], rfl, fun l hl => absurd hl (List.not_mem_nil l)⟩
  · rw [if_neg h1]
    dsimp only
    obtain ⟨tail, htail⟩ := wrapTextPartAux_some (m - 4) [' ', ' ', ' ', ' '] he t.length
      (wrapStep (m - 4) t).2 false (wrapStep_snd_length (m - 4) t he (by omega))
      (wrapStep_snd_trim (m - 4) t)
    refine ⟨(wrapStep (m - 4) t).1, tail, ?_, ?_⟩
    · rw [htail]
      rfl
    · exact fun l hl => wrapTextPartAux_false_head (m - 4) [' ', ' ', ' ', ' '] he t.length
        (wrapStep (m - 4) t).2 tail (wrapStep_snd_trim (m - 4) t) htail l hl

theorem wrapTextPart_ne_nil (t : List Char) (m : Int) (b : Bool) (out : List (List Char))
    (ht : jsTrim t = t) (hm : 5 ≤ m) (hout : wrapTextPart t m b = some out) :
    ∀ l ∈ out, l ≠ [] := by
  refine wrapTextPartAux_ne_nil
    (m - (((if b then [' ', ' ', ' ', ' '] else []) : List Char).length))
    (if b then [' ', ' ', ' ', ' '] else []) ?_ (t.length + 1) t true out ht hout
  cases b <;> simp <;> omega

/-- `wrapText` on a text with a paragraph boundary: the two paragraphs are
wrapped separately (plain, then indented) and concatenated with no separator
line in between. -/
theorem wrapText_boundary (a b : List Char) (m : Int) (ha : a ≠ []) (hb : b ≠ [])
    (hna : ∀ c ∈ a, c ≠ '\n' ∧ c ≠ '\r') (hnb : ∀ c ∈ b, c ≠ '\n' ∧ c ≠ '\r')
    (hta : jsTrim a = a) (htb : jsTrim b = b) (hm : 5 ≤ m) :
    ∃ la lb, wrapText (a ++ '\n' :: '\n' :: b) m = some (la ++ lb) ∧
      wrapTextPart a m false = some la ∧ wrapTextPart b m true = some lb := by
  obtain ⟨la, hla⟩ := wrapTextPart_some a m false hta hm
  obtain ⟨lb, hlb⟩ := wrapTextPart_some b m true htb hm
  refine ⟨la, lb, ?_, hla, hlb⟩
  rw [wrapText, insertMarkers_boundary a b hna hnb]
  rw [splitPLines_clean _ (by
    intro tok htok c htc
    rcases List.mem_append.mp htok with h2 | h2
    · obtain ⟨c', hc', rfl⟩ := List.mem_map.mp h2
      cases htc
      exact hna _ hc'
    · rcases List.mem_cons.mp h2 with rfl | h2
      · exact PTok.noConfusion htc
      · obtain ⟨c', hc', rfl⟩ := List.mem_map.mp h2
        cases htc
        exact hnb _ hc')]
  rw [processLines]
  simp only [Option.bind_eq_bind]
  have hone : processOneLine m (a.map PTok.ch ++ PTok.marker :: b.map PTok.ch) =
      some (la ++ (lb ++ [])) := by
    rw [processOneLine, ptrim_boundary a b ha hb hta htb]
    rw [if_neg (by simp)]
    rw [if_pos (by simp)]
    rw [splitMarker_boundary]
    rw [processParts]
    simp only [Option.bind_eq_bind]
    rw [hta]
    rw [if_neg (by simpa using ha)]
    rw [show (decide (0 < 0)) = false from rfl]
    rw [hla]
    simp only [Option.some_bind]
    rw [processParts]
    simp only [Option.bind_eq_bind]
    rw [htb]
    rw [if_neg (by simpa using hb)]
    rw [show (decide (0 < 1)) = true from rfl]
    rw [hlb]
    simp only [Option.some_bind]
    rw [show processParts m 2 [] = some [] from rfl]
    simp only [Option.some_bind, Option.pure_def, Option.some.injEq]
  rw [hone, show processLines m [] = some [] from rfl]
  simp only [Option.some_bind, Option.pure_def, Option.some.injEq, List.append_nil]

/-- C4 counterexample.  The paragraph boundary in `"A\n\nB"` is rendered with
no blank output line at all: `wrapText` yields exactly `["A", "    B"]`, so
the claimed blank line between the paragraphs does not exist. -/
theorem C4_boundary_counterexample :
    wrapText "A\n\nB".toList 10 = some ["A".toList, "    B".toList] ∧
    [] ∉ ["A".toList, "    B".toList] := by
  constructor
  · decide
  · decide

/-- C4 as amended: a run of two-or-more line breaks between two paragraphs is
rendered as the next paragraph's first wrapped line prefixed with 4 spaces —
with no blank line inserted — and all subsequent wrapped lines of that
paragraph are not indented (they are nonempty and start with non-whitespace). -/
theorem C4_paragraph_boundary (a b : List Char) (m : Int) (ha : a ≠ []) (hb : b ≠ [])
    (hna : ∀ c ∈ a, c ≠ '\n' ∧ c ≠ '\r') (hnb : ∀ c ∈ b, c ≠ '\n' ∧ c ≠ '\r')
    (hta : jsTrim a = a) (htb : jsTrim b = b) (hm : 5 ≤ m) :
    ∃ la l0 rest,
      wrapText (a ++ '\n' :: '\n' :: b) m =
        some (la ++ (' ' :: ' ' :: ' ' :: ' ' :: l0) :: rest) ∧
      wrapTextPart a m false = some la ∧
      wrapTextPart b m true = some ((' ' :: ' ' :: ' ' :: ' ' :: l0) :: rest) ∧
      (∀ l ∈ la, l ≠ []) ∧
      (∀ l ∈ rest, l ≠ [] ∧ isJsSpace (l.headD 'a') = false) := by
  obtain ⟨la, lb, hwt, hla, hlb⟩ := wrapText_boundary a b m ha hb hna hnb hta htb hm
  obtain ⟨l0, rest, hind, hrest⟩ := wrapTextPart_indent b m hm hb htb
  have hlbeq : lb = (' ' :: ' ' :: ' ' :: ' ' :: l0) :: rest := by
    rw [hlb] at hind
    exact (Option.some.injEq _ _).mp hind
  subst hlbeq
  exact ⟨la, l0, rest, hwt, hla, hlb,
    wrapTextPart_ne_nil a m false la hta hm hla, hrest⟩

theorem C4_paragraph_boundary_witness :
    ("A".toList ≠ [] ∧ "B".toList ≠ [] ∧ jsTrim "A".toList = "A".toList ∧
      jsTrim "B".toList = "B".toList ∧ (5 : Int) ≤ 10) ∧
    ∃ la l0 rest,
      wrapText ("A".toList ++ '\n' :: '\n' :: "B".toList) 10 =
        some (la ++ (' ' :: ' ' :: ' ' :: ' ' :: l0) :: rest) ∧
      wrapTextPart "A".toList 10 false = some la ∧
      wrapTextPart "B".toList 10 true = some ((' ' :: ' ' :: ' ' :: ' ' :: l0) :: rest) ∧
      (∀ l ∈ la, l ≠ []) ∧
      (∀ l ∈ rest, l ≠ [] ∧ isJsSpace (l.headD 'a') = false) :=
  ⟨⟨by decide, by decide, by decide, by decide, by decide⟩,
   C4_paragraph_boundary "A".toList "B".toList 10 (by decide) (by decide) (by decide)
     (by decide) (by decide) (by decide) (by decide)⟩

/-- The forward-advance block never moves the position backward. -/
theorem speechAdvance_le (st : TPState) (m : Int) :
    st.currentLinePosition ≤ (speechAdvance st m).currentLinePosition :=
  le_max_left _ _

/-- A single `processSpeechInput` call never decreases the position. -/
theorem processSpeechInput_le (st : TPState) (s : List Char) (f : Bool) :
    st.currentLinePosition ≤ (processSpeechInput st s f).currentLinePosition := by
  simp only [processSpeechInput]
  split
  · exact le_rfl
  · split
    · exact le_rfl
    · split
      · exact le_rfl
      · split
        · exact speechAdvance_le _ _
        · exact le_rfl

/-- C1.  Forward-only invariant: over any sequence of `processSpeechInput`
calls the scroll position is non-decreasing; a single speech-driven update
never moves the position backward; and whenever the matcher's result on the
buffer-updated state is at or below the current position, the position is
left exactly unchanged. -/
theorem C1_forward_only :
    (∀ (st : TPState) (inputs : List (List Char × Bool)),
        st.currentLinePosition ≤
          (inputs.foldl (fun acc p => processSpeechInput acc p.1 p.2) st).currentLinePosition) ∧
    (∀ (st : TPState) (s : List Char) (f : Bool),
        st.currentLinePosition ≤ (processSpeechInput st s f).currentLinePosition) ∧
    (∀ (st : TPState) (s : List Char) (f : Bool),
        findSpeechMatchPosition (updateSpeechBuffer st s f) ≤ st.currentLinePosition →
        (processSpeechInput st s f).currentLinePosition = st.currentLinePosition) := by
  refine ⟨?_, processSpeechInput_le, ?_⟩
  · intro st inputs
    induction inputs generalizing st with
    | nil => exact le_rfl
    | cons p rest ih =>
      exact le_trans (processSpeechInput_le st p.1 p.2) (ih (processSpeechInput st p.1 p.2))
  · intro st s f h
    simp only [processSpeechInput]
    split
    · rfl
    · split
      · rfl
      · split
        · rfl
        · split
          · next hcond =>
            exfalso
            have h1 : (updateSpeechBuffer st s f).currentLinePosition =
                st.currentLinePosition := rfl
            rw [h1] at hcond
            omega
          · rfl

theorem C1_forward_only_witness :
    findSpeechMatchPosition (updateSpeechBuffer stHello "yes".toList false) ≤
      stHello.currentLinePosition ∧
    (processSpeechInput stHello "yes".toList false).currentLinePosition =
      stHello.currentLinePosition :=
  ⟨by decide, C1_forward_only.2.2 stHello "yes".toList false (by decide)⟩

/-- C2 counterexample.  On the reachable state `stGreek` (seven speech-matching
lines, position 0, four visible lines), the slice examined by
`findSpeechMatchPosition` is the five lines `[0, 0+4+1)`, not the claimed
window `[0, 0+4+1+lookahead)` clipped to the sequence (= all seven lines). -/
theorem C2_window_counterexample :
    mkState "alpha beta gamma delta epsilon zeta eta theta iota kappa lambda mu nu xi".toList
        12 120 = some stGreek ∧
    (searchLines stGreek).length = 5 ∧
    (jsSlice (linesToSearch stGreek) stGreek.currentLinePosition
      (min ((linesToSearch stGreek).length : Int)
        (stGreek.currentLinePosition + stGreek.numberOfLines + 1 +
          (SPEECH_LOOKAHEAD_LINES : Int)))).length = 7 ∧
    searchLines stGreek ≠
      jsSlice (linesToSearch stGreek) stGreek.currentLinePosition
        (min ((linesToSearch stGreek).length : Int)
          (stGreek.currentLinePosition + stGreek.numberOfLines + 1 +
            (SPEECH_LOOKAHEAD_LINES : Int))) :=
  ⟨mkState_greek, by decide, by decide, by decide⟩

/-- C2 as amended: from a non-negative current position, the matcher examines
exactly the speech-matching lines with indices in
`[currentIndex, currentIndex + visibleLineCount + 1)` clipped to the sequence
length — the configured `SPEECH_LOOKAHEAD_LINES` is not added, and no line
below the current position is examined. -/
theorem C2_window (st : TPState) (h : 0 ≤ st.currentLinePosition) :
    ((searchLines st).length : Int) =
      min ((linesToSearch st).length : Int)
        (st.currentLinePosition + st.numberOfLines + 1) -
        min st.currentLinePosition ((linesToSearch st).length : Int) ∧
    ∀ k : Nat, k < (searchLines st).length →
      (searchLines st).get? k =
        (linesToSearch st).get? (st.currentLinePosition.toNat + k) := by
  set l := linesToSearch st with hl
  set n : Int := (l.length : Int) with hn
  set c : Int := st.currentLinePosition with hc
  set E : Int := min n (c + st.numberOfLines + 1) with hE
  have hn0 : 0 ≤ n := by positivity
  have hE0 : 0 ≤ E := by
    rw [hE]
    rcases le_total n (c + st.numberOfLines + 1) with h1 | h1
    · rw [min_eq_left h1]; exact hn0
    · rw [min_eq_right h1]; positivity
  have hEn : E ≤ n := min_le_left _ _
  have hsl : searchLines st = (l.take E.toNat).drop (min c n).toNat := by
    simp only [searchLines, jsSlice, searchStartLine, searchEndLine, ← hl, ← hn, ← hc, ← hE]
    rw [if_neg (by omega), if_neg (by omega)]
    congr 2
    omega
  constructor
  · rw [hsl]
    simp only [List.length_drop, List.length_take]
    have h1 : E.toNat ≤ l.length := by omega
    omega
  · intro k hk
    rw [hsl] at hk ⊢
    rw [List.get?_drop]
    have hklen : (min c n).toNat + k < E.toNat := by
      simp only [List.length_drop, List.length_take] at hk
      omega
    rw [List.get?_take hklen]
    congr 1
    simp only [List.length_drop, List.length_take] at hk
    omega

theorem C2_window_witness :
    0 ≤ stGreek.currentLinePosition ∧
    ((searchLines stGreek).length : Int) =
      min ((linesToSearch stGreek).length : Int)
        (stGreek.currentLinePosition + stGreek.numberOfLines + 1) -
        min stGreek.currentLinePosition ((linesToSearch stGreek).length : Int) :=
  ⟨by decide, (C2_window stGreek (by decide)).1⟩

/-- C3.  The range invariant `0 ≤ currentLinePosition` is violated: on the
reachable state `stShort` (the script `"hi"` wraps to one line, four lines
visible), a single `advancePosition` tick caps the position at the unclamped
`lines.length - numberOfLines = -3`. -/
theorem C3_range_violated :
    mkState "hi".toList 38 120 = some stShort ∧
    (advancePosition stShort).currentLinePosition =
      (stShort.lines.length : Int) - stShort.numberOfLines ∧
    (advancePosition stShort).currentLinePosition = -3 ∧
    ¬0 ≤ (advancePosition stShort).currentLinePosition := by
  have hcond : (1 : ℚ) ≤ stShort.linePositionAccumulator +
      stShort.wordsPerInterval / max 1 stShort.avgWordsPerLine := by
    norm_num [stShort]
  have hfloor : ⌊stShort.linePositionAccumulator +
      stShort.wordsPerInterval / max 1 stShort.avgWordsPerLine⌋ = 1 := by
    norm_num [stShort]
  have h2 := (advancePosition_spec stShort (by decide)).2
  rw [if_pos hcond, hfloor] at h2
  have h3 : skipEmptyLines stShort (stShort.currentLinePosition + 1) = -3 := by decide
  rw [h3] at h2
  exact ⟨mkState_hi, by rw [h2]; decide, h2, by rw [h2]; decide⟩

/-- C6 counterexample.  `wrapText` with the non-positive width 0 does not
throw: the validation only rejects non-numbers and `NaN`, so the claimed
"throws for every non-positive width" is false (here it returns normally
with `[""]` on the empty text). -/
theorem C6_validation_counterexample :
    isOk (wrapTextChecked [] (JSNumber.int 0)) = true ∧
    wrapTextChecked [] (JSNumber.int 0) = Except.ok (wrapText [] 0) ∧
    wrapText [] 0 = some [[]] :=
  ⟨rfl, rfl, by decide⟩

/-- C6 as amended: `wrapText` throws if and only if `maxLineLength` is not a
number or is `NaN`; every numeric (integral) width — positive, zero or
negative — passes the validation and returns normally instead of throwing. -/
theorem C6_validation :
    (∀ (text : List Char) (n : Int), isOk (wrapTextChecked text (JSNumber.int n)) = true) ∧
    (∀ text : List Char, isOk (wrapTextChecked text JSNumber.nan) = false) :=
  ⟨fun _ _ => rfl, fun _ => rfl⟩

/-- C8 counterexample.  On the reachable state `stSparse` the average
words-per-line is 2/3 (strictly between 0 and 1), so the code's increment
`wordsPerInterval / max(1, avg) = 1` differs from the claimed increment
`wordsPerInterval / avg = 3/2`: the claimed tick would carry remainder 1/2,
the code's tick carries 0. -/
theorem C8_tick_counterexample :
    mkState "a\n \nb".toList 38 120 = some stSparse ∧
    stSparse.avgWordsPerLine = 2 / 3 ∧
    0 < stSparse.avgWordsPerLine ∧
    stSparse.avgWordsPerLine < 1 ∧
    (advancePosition stSparse).linePositionAccumulator = 0 ∧
    stSparse.linePositionAccumulator + stSparse.wordsPerInterval / stSparse.avgWordsPerLine -
      ⌊stSparse.linePositionAccumulator +
        stSparse.wordsPerInterval / stSparse.avgWordsPerLine⌋ = 1 / 2 ∧
    (advancePosition stSparse).linePositionAccumulator ≠
      stSparse.linePositionAccumulator + stSparse.wordsPerInterval / stSparse.avgWordsPerLine -
        ⌊stSparse.linePositionAccumulator +
          stSparse.wordsPerInterval / stSparse.avgWordsPerLine⌋ := by
  have hacc : stSparse.linePositionAccumulator +
      stSparse.wordsPerInterval / max 1 stSparse.avgWordsPerLine = 1 := by
    norm_num [stSparse]
  have h1 := (advancePosition_spec stSparse (by decide)).1
  rw [hacc, if_pos le_rfl] at h1
  norm_num at h1
  have hclaimed : stSparse.linePositionAccumulator +
      stSparse.wordsPerInterval / stSparse.avgWordsPerLine -
      ⌊stSparse.linePositionAccumulator +
        stSparse.wordsPerInterval / stSparse.avgWordsPerLine⌋ = 1 / 2 := by
    have : stSparse.linePositionAccumulator +
        stSparse.wordsPerInterval / stSparse.avgWordsPerLine = 3 / 2 := by
      norm_num [stSparse]
    rw [this]
    rw [show ⌊(3 : ℚ) / 2⌋ = 1 by norm_num [Int.floor_eq_iff]]
    norm_num
  refine ⟨mkState_sparse, by norm_num [stSparse], by norm_num [stSparse],
    by norm_num [stSparse], h1, hclaimed, ?_⟩
  rw [h1, hclaimed]
  norm_num

/-- C8 as amended: each `advancePosition` tick adds exactly
`wordsPerInterval / max(1, averageWordsPerLine)` to the fractional
accumulator; when the result reaches 1 the position advances by the integer
part with the fractional remainder carried, then blank display windows are
skipped and the result capped at `lineCount - visibleLineCount`; otherwise
the accumulator keeps the sum and the position is only capped. -/
theorem C8_tick (st : TPState) (hne : st.lines ≠ []) :
    (advancePosition st).linePositionAccumulator =
      (if 1 ≤ st.linePositionAccumulator + st.wordsPerInterval / max 1 st.avgWordsPerLine then
        st.linePositionAccumulator + st.wordsPerInterval / max 1 st.avgWordsPerLine -
          ⌊st.linePositionAccumulator + st.wordsPerInterval / max 1 st.avgWordsPerLine⌋
      else st.linePositionAccumulator + st.wordsPerInterval / max 1 st.avgWordsPerLine) ∧
    (advancePosition st).currentLinePosition =
      (if 1 ≤ st.linePositionAccumulator + st.wordsPerInterval / max 1 st.avgWordsPerLine then
        skipEmptyLines st (st.currentLinePosition +
          ⌊st.linePositionAccumulator + st.wordsPerInterval / max 1 st.avgWordsPerLine⌋)
      else min st.currentLinePosition ((st.lines.length : Int) - st.numberOfLines)) :=
  advancePosition_spec st hne

theorem C8_tick_witness :
    stShort.lines ≠ [] ∧
    (advancePosition stShort).currentLinePosition =
      (if 1 ≤ stShort.linePositionAccumulator +
          stShort.wordsPerInterval / max 1 stShort.avgWordsPerLine then
        skipEmptyLines stShort (stShort.currentLinePosition +
          ⌊stShort.linePositionAccumulator +
            stShort.wordsPerInterval / max 1 stShort.avgWordsPerLine⌋)
      else min stShort.currentLinePosition
        ((stShort.lines.length : Int) - stShort.numberOfLines)) :=
  ⟨by decide, (C8_tick stShort (by decide)).2⟩

/-- What the forward-advance block does when the match is strictly ahead and
the lead offset is 0 (its value throughout the source): the new position is
the blank-window-skip adjustment of `min(match, current + 10)`, clamped to
`[current, lines.length - numberOfLines]`, and the fractional accumulator is
reset to 0 whenever the position actually moved. -/
theorem speechAdvance_spec (st : TPState) (m : Int) (hoff : st.lineOffset = 0)
    (hm2 : st.currentLinePosition < m) :
    (speechAdvance st m).currentLinePosition =
      max st.currentLinePosition
        (min (skipEmptyLines st (min m (st.currentLinePosition + 10)))
          ((st.lines.length : Int) - st.numberOfLines)) ∧
    ((speechAdvance st m).currentLinePosition ≠ st.currentLinePosition →
      (speechAdvance st m).linePositionAccumulator = 0) := by
  have hT : max st.currentLinePosition
      (max (min m (st.currentLinePosition + 10)) st.currentLinePosition - st.lineOffset) =
      min m (st.currentLinePosition + 10) := by
    rw [hoff]
    omega
  constructor
  · simp only [speechAdvance]
    rw [hT]
  · intro hne
    simp only [speechAdvance] at hne ⊢
    rw [if_pos hne]

/-- C7.  When `processSpeechInput` obtains a match position `m` strictly ahead
of the current position `p` (with the lead offset at its constant value 0),
the new position is the blank-window-skip adjustment of `min(m, p + 10)`,
never below `p` and never above `lines.length - numberOfLines`, and the
fractional accumulator is reset to 0 on any actual jump. -/
theorem C7_speech_postcondition (st : TPState) (s : List Char) (f : Bool) (m : Int)
    (hoff : st.lineOffset = 0)
    (hen : st.speechScrollEnabled = true)
    (htrim : jsTrim s ≠ [])
    (hw : normalizeWords s ≠ [])
    (hbuf : ¬(updateSpeechBuffer st s f).speechBuffer.length <
      (updateSpeechBuffer st s f).minWordsForMatch)
    (hm : findSpeechMatchPosition (updateSpeechBuffer st s f) = m)
    (hm1 : m ≠ -1)
    (hm2 : st.currentLinePosition < m) :
    (processSpeechInput st s f).currentLinePosition =
      max st.currentLinePosition
        (min (skipEmptyLines st (min m (st.currentLinePosition + 10)))
          ((st.lines.length : Int) - st.numberOfLines)) ∧
    ((processSpeechInput st s f).currentLinePosition ≠ st.currentLinePosition →
      (processSpeechInput st s f).linePositionAccumulator = 0) := by
  have hps : processSpeechInput st s f = speechAdvance (updateSpeechBuffer st s f) m := by
    simp only [processSpeechInput]
    rw [if_neg (by simp [hen, htrim]), if_neg hw, if_neg hbuf, hm,
      if_pos ⟨hm1, show (updateSpeechBuffer st s f).currentLinePosition < m from hm2⟩]
  rw [hps]
  exact speechAdvance_spec (updateSpeechBuffer st s f) m hoff hm2

theorem C7_speech_postcondition_witness :
    findSpeechMatchPosition (updateSpeechBuffer stGreek "epsilon zeta eta".toList false) = 2 ∧
    stGreek.currentLinePosition < 2 ∧
    (processSpeechInput stGreek "epsilon zeta eta".toList false).currentLinePosition =
      max stGreek.currentLinePosition
        (min (skipEmptyLines stGreek (min 2 (stGreek.currentLinePosition + 10)))
          ((stGreek.lines.length : Int) - stGreek.numberOfLines)) ∧
    ((processSpeechInput stGreek "epsilon zeta eta".toList false).currentLinePosition ≠
        stGreek.currentLinePosition →
      (processSpeechInput stGreek "epsilon zeta eta".toList false).linePositionAccumulator =
        0) := by
  refine ⟨by decide, by decide, ?_, ?_⟩
  · exact (C7_speech_postcondition stGreek "epsilon zeta eta".toList false 2 rfl rfl
      (by decide) (by decide) (by decide) (by decide) (by decide) (by decide)).1
  · exact (C7_speech_postcondition stGreek "epsilon zeta eta".toList false 2 rfl rfl
      (by decide) (by decide) (by decide) (by decide) (by decide) (by decide)).2

/-- C9.  Unclosed stage-direction spans extend to end-of-text and are never an
error: whenever the scan's nesting depth never returns to 0, `findRanges`
reports a span ending at the text length; in particular for `"A [B"` with the
Square delimiter, `strip` yields `"A "` and the Dimmed transform yields
`"A (B)"` (with the synthesized trailing parenthesis). -/
theorem C9_unclosed_spans :
    (∀ (o c : Char) (cs : List Char), 0 < finalDepth o c cs →
      ∃ s, (s, cs.length) ∈ findRanges o c cs) ∧
    stripStageDirections "A [B".toList DelimiterType.square = "A ".toList ∧
    transformStageDirectionsForDisplay "A [B".toList DelimiterType.square DisplayMode.dimmed =
      "A (B)".toList := by
  refine ⟨?_, by decide, by decide⟩
  intro o c cs h
  simpa [findRanges] using findRangesAux_unclosed o c cs 0 0 0 h

theorem C9_unclosed_spans_witness :
    0 < finalDepth '[' ']' "A [B".toList ∧
    ∃ s, (s, "A [B".toList.length) ∈ findRanges '[' ']' "A [B".toList :=
  ⟨by decide, C9_unclosed_spans.1 '[' ']' "A [B".toList (by decide)⟩
